import Mathlib

/-
Verification of the OLAP engine's operator tree and SQL translation
(src/table.rs, src/plan.rs, src/sql.rs).

Modelling conventions:
* Rust `HashMap` values are modelled as association lists with unique keys,
  lookup returning the first matching entry, insertion replacing an existing
  entry in place and otherwise appending.  This is one deterministic instance
  of `HashMap`'s unspecified iteration order (the spec declares group emission
  order unspecified).
* Rust `f64` arithmetic is modelled with `F64`, exact rationals as
  unnormalized numerator/denominator pairs; `str::parse::<f64>` is modelled
  by `parseNum`, a plain decimal-notation parser.
* Panics (`unwrap`, indexing a missing key, out-of-range indexing) are
  modelled by `Option`: a `none` result marks an execution that panics.
* `DataChunk` comes from `src/execution.rs`, which is not part of the sources
  here; modelled from the spec: a Result Chunk is a mapping from column name
  to an ordered sequence of text values.
-/

namespace Olap

/-- Option-valued map over a list, mirroring a loop whose body may panic. -/
def mapO (f : α → Option β) : List α → Option (List β)
  | [] => some []
  | a :: l => do
      let b ← f a
      let l' ← mapO f l
      pure (b :: l')

/-- Option-valued left fold over a list, mirroring a loop whose body may panic. -/
def foldO (f : β → α → Option β) : β → List α → Option β
  | b, [] => some b
  | b, a :: l =>
      match f b a with
      | some b' => foldO f b' l
      | none => none

/-- Lookup in an association list (first entry with the given key), the model
of `HashMap` indexing / `get`. -/
def lookupA [DecidableEq κ] : List (κ × α) → κ → Option α
  | [], _ => none
  | p :: rest, k => if p.1 = k then some p.2 else lookupA rest k

/-- Key membership test, the model of `HashMap::contains_key`. -/
def hasKey [DecidableEq κ] (m : List (κ × α)) (k : κ) : Bool :=
  (lookupA m k).isSome

/-- Insert into the association-list map: replace the first entry with this
key in place, otherwise append, the model of `HashMap::insert` and of
`entry(..).or_insert_with(..)` followed by mutation. -/
def insertA [DecidableEq κ] : List (κ × α) → κ → α → List (κ × α)
  | [], k, v => [(k, v)]
  | p :: rest, k, v => if p.1 = k then (k, v) :: rest else p :: insertA rest k v

/-- Mutate the value at a key, the model of `get_mut(k).unwrap()` followed by
an update; `none` when the key is absent (the `unwrap` panic). -/
def modifyA [DecidableEq κ] : List (κ × α) → κ → (α → α) → Option (List (κ × α))
  | [], _, _ => none
  | p :: rest, k, f =>
      if p.1 = k then some ((p.1, f p.2) :: rest)
      else (modifyA rest k f).map (p :: ·)

/-- The key list of an association-list map. -/
def keysA (m : List (κ × α)) : List κ :=
  m.map Prod.fst

/-- Result Chunk (`DataChunk`). Modelled from the spec: `src/execution.rs` is
not among the sources; §3 of the spec defines a Result Chunk as a mapping from
column name to an ordered sequence of text values. -/
abbrev Chunk := List (String × List String)

/-- A column of the in-memory table (`Column<String>` in src/table.rs). -/
structure Column where
  name : String
  data : List String
deriving DecidableEq

/-- The in-memory table (`Table` in src/table.rs): a map from column name to
`Column`. -/
structure Table where
  columns : List (String × Column)
deriving DecidableEq

/-- Row count as the plan operators compute it:
`input_chunk.values().next().map_or(0, |v| v.len())`. -/
def numRows (c : Chunk) : Nat :=
  match c with
  | [] => 0
  | p :: _ => p.2.length

/-- All present columns of a chunk share one length (the Result Chunk
invariant of §3). -/
def equalLens (c : Chunk) : Bool :=
  c.all (fun p => p.2.length == numRows c)

/-- One cell of a chunk: `input_chunk[col][i]`; `none` models the panic when
the column is absent or the index is out of range. -/
def cell (c : Chunk) (col : String) (i : Nat) : Option String :=
  (lookupA c col).bind (fun v => v.get? i)

/-- Scan execution (`ScanNode::execute`): copy every column of the bound
table into a chunk. -/
def scanExec (t : Table) : Chunk :=
  t.columns.map (fun p => (p.1, p.2.data))

/-- Project execution (`ProjectNode::execute`): keep exactly the columns
whose names appear in the configured list. -/
def projectExec (cols : List String) (c : Chunk) : Chunk :=
  c.filter (fun p => cols.contains p.1)

/-- A row view handed to a filter predicate: column name to that row's value. -/
abbrev RowView := String → Option String

/-- The row materialized by `FilterNode::execute` for row index `i`:
`(k, v[i])` for every column `(k, v)`; `none` models the indexing panic. -/
def buildRow (c : Chunk) (i : Nat) : Option (List (String × String)) :=
  mapO (fun p => (p.2.get? i).map (fun v => (p.1, v))) c

/-- Turn a materialized row into the lookup function a predicate sees. -/
def rowFun (r : List (String × String)) : RowView :=
  fun k => lookupA r k

/-- Filter execution (`FilterNode::execute`): evaluate the predicate on each
row view in order; a surviving row's values are appended to every output
column; the output retains the full column set of the child. -/
def filterExec (pred : RowView → Bool) (c : Chunk) : Option Chunk := do
  let flags ← mapO (fun i => (buildRow c i).map (fun r => (i, pred (rowFun r))))
      (List.range (numRows c))
  let kept := flags.filterMap (fun p => if p.2 then some p.1 else none)
  pure (c.map (fun p => (p.1, kept.filterMap (fun i => p.2.get? i))))

/-- Aggregate kinds executable by the engine (`AggregateFunction` in
src/plan.rs): only `Count` and `Sum`. -/
inductive AggregateFunction
  | Count
  | Sum
deriving DecidableEq

/-- Model of a Rust `f64` value: an exact rational as an unnormalized
(numerator, denominator) pair, so that every arithmetic operation is
kernel-computable.  The engine only ever adds such values, and integral
values always keep denominator `1`. -/
structure F64 where
  num : Int
  den : Nat
deriving DecidableEq

instance : Zero F64 :=
  ⟨⟨0, 1⟩⟩

instance : One F64 :=
  ⟨⟨1, 1⟩⟩

instance : Add F64 :=
  ⟨fun a b => ⟨a.num * (b.den : Int) + b.num * (a.den : Int), a.den * b.den⟩⟩

instance : Neg F64 :=
  ⟨fun a => ⟨-a.num, a.den⟩⟩

instance : NatCast F64 :=
  ⟨fun n => ⟨Int.ofNat n, 1⟩⟩

instance (n : Nat) : OfNat F64 n :=
  ⟨⟨Int.ofNat n, 1⟩⟩

instance : AddCommMonoid F64 where
  nsmul := nsmulRec
  add_assoc a b c := by
    show F64.mk
        ((a.num * (b.den : Int) + b.num * (a.den : Int)) * (c.den : Int)
          + c.num * ((a.den * b.den : Nat) : Int))
        ((a.den * b.den) * c.den) =
      F64.mk
        (a.num * ((b.den * c.den : Nat) : Int)
          + (b.num * (c.den : Int) + c.num * (b.den : Int)) * (a.den : Int))
        (a.den * (b.den * c.den))
    rw [F64.mk.injEq]
    constructor
    · push_cast
      ring
    · ring
  zero_add a := by
    obtain ⟨n, d⟩ := a
    show F64.mk ((0 : Int) * (d : Int) + n * ((1 : Nat) : Int)) (1 * d) =
      F64.mk n d
    rw [F64.mk.injEq]
    constructor
    · push_cast
      ring
    · ring
  add_zero a := by
    obtain ⟨n, d⟩ := a
    show F64.mk (n * ((1 : Nat) : Int) + (0 : Int) * (d : Int)) (d * 1) =
      F64.mk n d
    rw [F64.mk.injEq]
    constructor
    · push_cast
      ring
    · ring
  add_comm a b := by
    show F64.mk (a.num * (b.den : Int) + b.num * (a.den : Int)) (a.den * b.den) =
      F64.mk (b.num * (a.den : Int) + a.num * (b.den : Int)) (b.den * a.den)
    rw [F64.mk.injEq]
    constructor
    · ring
    · ring

/-- Digit value of a decimal digit character. -/
def digitVal (ch : Char) : Nat :=
  ch.toNat - 48

/-- Natural number denoted by a list of decimal digit characters. -/
def natOfDigits (ds : List Char) : Nat :=
  ds.foldl (fun n d => 10 * n + digitVal d) 0

/-- Unsigned decimal literal: digits with an optional fractional part; the
value `ip.fp` is represented exactly as `(ip·10^k + fp) / 10^k`. -/
def parseUnsigned (cs : List Char) : Option F64 :=
  let ip := cs.takeWhile Char.isDigit
  match cs.dropWhile Char.isDigit with
  | [] => if ip.isEmpty then none else some ⟨Int.ofNat (natOfDigits ip), 1⟩
  | '.' :: fp =>
      if fp.all Char.isDigit && !(ip.isEmpty && fp.isEmpty) then
        some ⟨Int.ofNat (natOfDigits ip * 10 ^ fp.length + natOfDigits fp),
          10 ^ fp.length⟩
      else none
  | _ => none

/-- Modelled from Rust `str::parse::<f64>`, restricted to plain decimal
notation (optional sign, digits, optional fractional part), with exact
rational arithmetic standing in for binary floating point. -/
def parseNum (s : String) : Option F64 :=
  match s.toList with
  | '-' :: cs => (parseUnsigned cs).map (fun q => -q)
  | '+' :: cs => parseUnsigned cs
  | cs => parseUnsigned cs

/-- Rendering of an aggregate value (`f64::to_string`): integral values
(denominator `1`, the only ones the engine's tests exercise) print without a
decimal point, as Rust's `Display` does; non-integral representations render
as a fraction. -/
def numToString (q : F64) : String :=
  if q.den = 1 then toString q.num else toString q.num ++ "/" ++ toString q.den

/-- Per-group accumulator state: the inner `HashMap<String, f64>`. -/
abbrev AggState := List (String × F64)

/-- The grouping structure: `HashMap<Vec<String>, HashMap<String, f64>>`. -/
abbrev Groups := List (List String × AggState)

/-- Initial accumulator for a new group (the `or_insert_with` closure in
`AggregateNode::execute`): every aggregate target starts at `0.0`. -/
def initState (aggs : List (String × AggregateFunction)) : AggState :=
  aggs.foldl (fun st p => insertA st p.1 0) []

/-- One aggregate pair's update for one row: read `input_chunk[col][i]`, then
`Count` adds one and `Sum` adds the parsed value when parsing succeeds (a
failed parse contributes nothing). -/
def accumPair (c : Chunk) (i : Nat) (st : AggState)
    (p : String × AggregateFunction) : Option AggState := do
  let v ← cell c p.1 i
  match p.2 with
  | AggregateFunction.Count => modifyA st p.1 (fun x => x + 1)
  | AggregateFunction.Sum =>
      match parseNum v with
      | some q => modifyA st p.1 (fun x => x + q)
      | none => some st

/-- One row's accumulation pass over the whole aggregate list. -/
def accumRow (aggs : List (String × AggregateFunction)) (c : Chunk) (i : Nat)
    (st : AggState) : Option AggState :=
  foldO (accumPair c i) st aggs

/-- Specification-side value: what one row is supposed to contribute to an
aggregate of the given kind — `1` for Count, the parsed value (or `0` on a
parse failure) for Sum. -/
def contribOf (f : AggregateFunction) (c : Chunk) (col : String) (i : Nat) : F64 :=
  match f with
  | AggregateFunction.Count => 1
  | AggregateFunction.Sum => ((cell c col i).bind parseNum).getD 0

/-- The group key of row `i`: the tuple of the row's values in the group-by
columns. -/
def groupKey (gb : List String) (c : Chunk) (i : Nat) : Option (List String) :=
  mapO (fun col => cell c col i) gb

/-- Specification-side value: the total contribution of the rows of one group
(the rows whose group key equals `key`) to an aggregate of kind `f` over
column `col`. -/
def groupContrib (gb : List String) (f : AggregateFunction) (c : Chunk)
    (col : String) (n : Nat) (key : List String) : F64 :=
  (((List.range n).filter (fun j => groupKey gb c j = some key)).map
    (fun j => contribOf f c col j)).sum

/-- Process one row of the grouping loop in `AggregateNode::execute`. -/
def stepRow (gb : List String) (aggs : List (String × AggregateFunction))
    (c : Chunk) (groups : Groups) (i : Nat) : Option Groups := do
  let key ← groupKey gb c i
  let st0 := (lookupA groups key).getD (initState aggs)
  let st ← accumRow aggs c i st0
  pure (insertA groups key st)

/-- The grouping loop after the first `i` rows. -/
def aggGroupsUpTo (gb : List String) (aggs : List (String × AggregateFunction))
    (c : Chunk) (i : Nat) : Option Groups :=
  foldO (stepRow gb aggs c) [] (List.range i)

/-- The grouping loop of `AggregateNode::execute` over the whole input. -/
def aggGroups (gb : List String) (aggs : List (String × AggregateFunction))
    (c : Chunk) : Option Groups :=
  aggGroupsUpTo gb aggs c (numRows c)

/-- `result.get_mut(col).unwrap().push(v)`: append one value to one column. -/
def pushA (m : Chunk) (k : String) (v : String) : Option Chunk :=
  modifyA m k (fun vs => vs ++ [v])

/-- The empty result chunk of `AggregateNode::execute`: one empty column per
group-by name, then one per aggregate target name. -/
def initResult (gb : List String) (aggs : List (String × AggregateFunction)) :
    Chunk :=
  aggs.foldl (fun r p => insertA r p.1 [])
    (gb.foldl (fun r col => insertA r col []) [])

/-- Emit one group into the result chunk: push each key component into its
group-by column, then push each accumulated value (rendered to text) into its
aggregate column. -/
def emitGroup (gb : List String) (key : List String) (st : AggState)
    (r : Chunk) : Option Chunk := do
  let r ← foldO (fun r p => do
      let v ← key.get? p.1
      pushA r p.2 v) r gb.enum
  foldO (fun r p => pushA r p.1 (numToString p.2)) r st

/-- Aggregate execution (`AggregateNode::execute`): group the input rows,
then assemble the result chunk group by group. -/
def aggregateExec (gb : List String) (aggs : List (String × AggregateFunction))
    (c : Chunk) : Option Chunk := do
  let groups ← aggGroups gb aggs c
  foldO (fun r g => emitGroup gb g.1 g.2 r) (initResult gb aggs) groups

/-- The plan-node tree (`PlanNode` in src/plan.rs). -/
inductive PlanNode where
  | scan (table : Table)
  | project (input : PlanNode) (columns : List String)
  | filter (input : PlanNode) (predicate : RowView → Bool)
  | aggregate (input : PlanNode) (group_by : List String)
      (aggregates : List (String × AggregateFunction))

/-- Plan execution (`Executable::execute` dispatch in src/plan.rs); `none`
models a panic during execution. -/
def PlanNode.execute : PlanNode → Option Chunk
  | PlanNode.scan t => some (scanExec t)
  | PlanNode.project x cols => (PlanNode.execute x).map (projectExec cols)
  | PlanNode.filter x p => (PlanNode.execute x).bind (filterExec p)
  | PlanNode.aggregate x gb aggs => (PlanNode.execute x).bind (aggregateExec gb aggs)

/-- Binary operators of the SQL AST needed by the translator's patterns. -/
inductive BinaryOperator
  | Eq
  | Gt
  | Lt
  | And
  | Or
deriving DecidableEq

/-- SQL expressions as the translator in src/sql.rs inspects them
(sqlparser's `Expr`, restricted to the shapes the translator matches on,
plus the shapes it falls through on). -/
inductive SqlExpr where
  | Identifier (name : String)
  | SingleQuotedString (s : String)
  | BinaryOp (left : SqlExpr) (op : BinaryOperator) (right : SqlExpr)
  | Function (name : String) (args : List String)

/-- SQL select-list items (`SelectItem`). -/
inductive SelectItem where
  | UnnamedExpr (e : SqlExpr)
  | Wildcard

/-- The parsed query as the translator reads it: the WHERE selection, the
GROUP BY expressions, the SELECT projection list.  The sqlparser crate, which
produces this AST from the query string, is an external collaborator. -/
structure SqlQuery where
  selection : Option SqlExpr
  group_by : List SqlExpr
  projection : List SelectItem

/-- Rust `str::to_lowercase` as the translator applies it to aggregate
function names (kernel-computable character map). -/
def toLowerStr (s : String) : String :=
  String.mk (s.data.map Char.toLower)

/-- Rust `String::replace('\x22', "")` as the translator applies it to the
aggregate argument text: drop every double-quote character. -/
def stripQuotes (s : String) : String :=
  String.mk (s.data.filter (fun ch => ch != '\x22'))

/-- The translator's aggregate-name dispatch: `"sum"` and `"count"` map to
plan aggregates; `"avg"` maps in the source to `AggregateFunction::Avg`, a
variant that does not exist in the plan enum (the crate does not build), and
any other name panics — both modelled as `none`. -/
def aggFromName (s : String) : Option AggregateFunction :=
  match s with
  | "sum" => some AggregateFunction.Sum
  | "count" => some AggregateFunction.Count
  | _ => none

/-- SQL-to-plan translation (`parse_sql_to_plan` in src/sql.rs), taking the
already-parsed query.  Note: a WHERE selection of any shape other than
`<identifier> = '<literal>'` falls through both `if let` patterns and is
silently ignored; non-identifier GROUP BY expressions and unrecognized
aggregate names panic (`none`). -/
def parse_sql_to_plan (q : SqlQuery) (table : Table) : Option PlanNode := do
  let plan0 := PlanNode.scan table
  let plan1 :=
    match q.selection with
    | some (SqlExpr.BinaryOp (SqlExpr.Identifier ident) BinaryOperator.Eq
        (SqlExpr.SingleQuotedString val)) =>
        PlanNode.filter plan0 (fun row => row ident == some val)
    | _ => plan0
  let plan2 ←
    if q.group_by.isEmpty then some plan1 else do
      let cols ← mapO (fun e =>
          match e with
          | SqlExpr.Identifier ident => some ident
          | _ => none) q.group_by
      let aggs ← foldO (fun acc item =>
          match item with
          | SelectItem.UnnamedExpr (SqlExpr.Function fname fargs) => do
              let a ← fargs.get? 0
              let f ← aggFromName (toLowerStr fname)
              pure (acc ++ [(stripQuotes a, f)])
          | _ => some acc) [] q.projection
      pure (PlanNode.aggregate plan1 cols aggs)
  let cols := q.projection.filterMap (fun item =>
      match item with
      | SelectItem.UnnamedExpr (SqlExpr.Identifier ident) => some ident
      | _ => none)
  pure (if cols.isEmpty then plan2 else PlanNode.project plan2 cols)

/-- Whether a plan tree contains a Filter node anywhere. -/
def containsFilter : PlanNode → Bool
  | PlanNode.scan _ => false
  | PlanNode.project x _ => containsFilter x
  | PlanNode.filter _ _ => true
  | PlanNode.aggregate x _ _ => containsFilter x

/-- The sample table of the repository's tests:
`region=[East,West,East]`, `sales=[100,200,300]`. -/
def sampleTable : Table :=
  ⟨[("region", ⟨"region", ["East", "West", "East"]⟩),
    ("sales", ⟨"sales", ["100", "200", "300"]⟩)]⟩

/-- Counterexample table with two single-row columns `a=[x]`, `b=[y]`. -/
def tableAB : Table :=
  ⟨[("a", ⟨"a", ["x"]⟩), ("b", ⟨"b", ["y"]⟩)]⟩

/-- Counterexample table `g=[a]`, `s=[1]`. -/
def tableGS1 : Table :=
  ⟨[("g", ⟨"g", ["a"]⟩), ("s", ⟨"s", ["1"]⟩)]⟩

/-- Counterexample table `g=[a]`, `s=[5]`. -/
def tableGS5 : Table :=
  ⟨[("g", ⟨"g", ["a"]⟩), ("s", ⟨"s", ["5"]⟩)]⟩

/-- Counterexample table `g=[a]`, `s=[2]`. -/
def tableGS2 : Table :=
  ⟨[("g", ⟨"g", ["a"]⟩), ("s", ⟨"s", ["2"]⟩)]⟩

theorem mapO_nil (f : α → Option β) : mapO f [] = some [] := rfl

theorem mapO_cons (f : α → Option β) (a : α) (l : List α) :
    mapO f (a :: l) =
      (f a).bind (fun b => (mapO f l).bind (fun l' => some (b :: l'))) := rfl

theorem mapO_eq_some_of_forall {f : α → Option β} :
    ∀ {l : List α}, (∀ a ∈ l, (f a).isSome) → ∃ l', mapO f l = some l'
  | [], _ => ⟨[], rfl⟩
  | a :: l, h => by
      obtain ⟨b, hb⟩ := Option.isSome_iff_exists.mp (h a (List.mem_cons_self a l))
      obtain ⟨l', hl'⟩ := mapO_eq_some_of_forall (fun x hx => h x (List.mem_cons_of_mem a hx))
      exact ⟨b :: l', by simp [mapO_cons, hb, hl']⟩

theorem mapO_forall₂ {f : α → Option β} :
    ∀ {l : List α} {l' : List β}, mapO f l = some l' →
      List.Forall₂ (fun a b => f a = some b) l l'
  | [], l', h => by
      simp only [mapO_nil, Option.some_inj] at h
      exact h ▸ List.Forall₂.nil
  | a :: l, l', h => by
      rw [mapO_cons] at h
      cases hfa : f a with
      | none => rw [hfa] at h; exact absurd h (by simp)
      | some b =>
          rw [hfa] at h
          cases hml : mapO f l with
          | none => rw [hml] at h; exact absurd h (by simp)
          | some tl =>
              rw [hml] at h
              obtain rfl : b :: tl = l' := by simpa using h
              exact List.Forall₂.cons hfa (mapO_forall₂ hml)

theorem mapO_length {f : α → Option β} {l : List α} {l' : List β}
    (h : mapO f l = some l') : l'.length = l.length :=
  ((mapO_forall₂ h).length_eq).symm

theorem foldO_nil (f : β → α → Option β) (b : β) : foldO f b [] = some b := rfl

theorem foldO_cons (f : β → α → Option β) (b : β) (a : α) (l : List α) :
    foldO f b (a :: l) = (f b a).bind (fun b' => foldO f b' l) := by
  simp only [foldO]
  cases f b a <;> rfl

theorem foldO_append (f : β → α → Option β) :
    ∀ (l l' : List α) (b : β),
      foldO f b (l ++ l') = (foldO f b l).bind (fun b' => foldO f b' l')
  | [], l', b => rfl
  | a :: l, l', b => by
      simp only [List.cons_append, foldO_cons]
      cases f b a with
      | none => rfl
      | some b' => simp [foldO_append f l l' b']

theorem lookupA_nil [DecidableEq κ] (k : κ) :
    lookupA ([] : List (κ × α)) k = none := rfl

theorem lookupA_cons [DecidableEq κ] (p : κ × α) (m : List (κ × α)) (k : κ) :
    lookupA (p :: m) k = if p.1 = k then some p.2 else lookupA m k := rfl

theorem hasKey_iff_lookupA [DecidableEq κ] {m : List (κ × α)} {k : κ} :
    hasKey m k = true ↔ ∃ v, lookupA m k = some v := by
  simp [hasKey, Option.isSome_iff_exists]

theorem lookupA_isSome_of_mem_keysA [DecidableEq κ] :
    ∀ {m : List (κ × α)} {k : κ}, k ∈ keysA m → (lookupA m k).isSome
  | [], k, h => by simp [keysA] at h
  | p :: m, k, h => by
      rw [lookupA_cons]
      by_cases hk : p.1 = k
      · simp [hk]
      · simp only [keysA, List.map_cons, List.mem_cons] at h
        rcases h with h | h
        · exact absurd h.symm hk
        · simpa [hk] using lookupA_isSome_of_mem_keysA h

theorem mem_keysA_of_lookupA [DecidableEq κ] :
    ∀ {m : List (κ × α)} {k : κ} {v : α}, lookupA m k = some v → k ∈ keysA m
  | [], k, v, h => by simp [lookupA_nil] at h
  | p :: m, k, v, h => by
      rw [lookupA_cons] at h
      by_cases hk : p.1 = k
      · simp [keysA, hk]
      · simp only [hk, if_false] at h
        simp only [keysA, List.map_cons, List.mem_cons]
        exact Or.inr (mem_keysA_of_lookupA h)

theorem lookupA_eq_some_of_mem [DecidableEq κ] :
    ∀ {m : List (κ × α)} {p : κ × α}, (keysA m).Nodup → p ∈ m →
      lookupA m p.1 = some p.2
  | [], p, _, h => absurd h (List.not_mem_nil p)
  | q :: m, p, hnd, h => by
      simp only [keysA, List.map_cons, List.nodup_cons] at hnd
      rw [lookupA_cons]
      rcases List.mem_cons.mp h with h | h
      · simp [h]
      · have hne : q.1 ≠ p.1 := by
          intro he
          exact hnd.1 (he ▸ List.mem_map_of_mem Prod.fst h)
        simp only [hne, if_false]
        exact lookupA_eq_some_of_mem hnd.2 h

theorem mem_of_lookupA_eq_some [DecidableEq κ] :
    ∀ {m : List (κ × α)} {k : κ} {v : α}, lookupA m k = some v → (k, v) ∈ m
  | [], k, v, h => by simp [lookupA_nil] at h
  | p :: m, k, v, h => by
      rw [lookupA_cons] at h
      by_cases hk : p.1 = k
      · simp only [hk, if_true, Option.some_inj] at h
        have hp : p = (k, v) := by
          rw [← hk, ← h]
        rw [← hp]
        exact List.mem_cons_self p m
      · simp only [hk, if_false] at h
        exact List.mem_cons_of_mem p (mem_of_lookupA_eq_some h)

theorem keysA_modifyA [DecidableEq κ] {f : α → α} :
    ∀ {m m' : List (κ × α)} {k : κ}, modifyA m k f = some m' →
      keysA m' = keysA m
  | [], m', k, h => by simp [modifyA] at h
  | p :: m, m', k, h => by
      rw [modifyA] at h
      by_cases hk : p.1 = k
      · simp only [hk, if_true, Option.some_inj] at h
        subst h
        simp [keysA, hk]
      · simp only [hk, if_false] at h
        cases hm : modifyA m k f with
        | none => rw [hm] at h; simp at h
        | some m₀ =>
            rw [hm] at h
            obtain rfl : p :: m₀ = m' := by simpa using h
            simp only [keysA, List.map_cons]
            rw [show List.map Prod.fst m₀ = keysA m₀ from rfl, keysA_modifyA hm]
            rfl

theorem modifyA_isSome [DecidableEq κ] {f : α → α} :
    ∀ {m : List (κ × α)} {k : κ}, (lookupA m k).isSome →
      (modifyA m k f).isSome
  | [], k, h => by simp [lookupA_nil] at h
  | p :: m, k, h => by
      rw [modifyA]
      by_cases hk : p.1 = k
      · simp [hk]
      · rw [lookupA_cons] at h
        simp only [hk, if_false] at h ⊢
        have hson : (modifyA m k f).isSome := modifyA_isSome h
        cases hm : modifyA m k f with
        | none => rw [hm] at hson; simp at hson
        | some m₀ => simp

theorem lookupA_modifyA_self [DecidableEq κ] {f : α → α} :
    ∀ {m m' : List (κ × α)} {k : κ}, modifyA m k f = some m' →
      lookupA m' k = (lookupA m k).map f
  | [], m', k, h => by simp [modifyA] at h
  | p :: m, m', k, h => by
      rw [modifyA] at h
      by_cases hk : p.1 = k
      · simp only [hk, if_true, Option.some_inj] at h
        subst h
        simp [lookupA_cons, hk]
      · simp only [hk, if_false] at h
        cases hm : modifyA m k f with
        | none => rw [hm] at h; simp at h
        | some m₀ =>
            rw [hm] at h
            obtain rfl : p :: m₀ = m' := by simpa using h
            simp only [lookupA_cons, hk, if_false]
            exact lookupA_modifyA_self hm

theorem lookupA_modifyA_ne [DecidableEq κ] {f : α → α} :
    ∀ {m m' : List (κ × α)} {k k' : κ}, modifyA m k f = some m' → k' ≠ k →
      lookupA m' k' = lookupA m k'
  | [], m', k, k', h, _ => by simp [modifyA] at h
  | p :: m, m', k, k', h, hne => by
      rw [modifyA] at h
      by_cases hk : p.1 = k
      · simp only [hk, if_true, Option.some_inj] at h
        subst h
        simp [lookupA_cons, hk, Ne.symm hne]
      · simp only [hk, if_false] at h
        cases hm : modifyA m k f with
        | none => rw [hm] at h; simp at h
        | some m₀ =>
            rw [hm] at h
            obtain rfl : p :: m₀ = m' := by simpa using h
            simp only [lookupA_cons]
            by_cases hp : p.1 = k'
            · simp [hp]
            · simp only [hp, if_false]
              exact lookupA_modifyA_ne hm hne

theorem lookupA_insertA_self [DecidableEq κ] :
    ∀ (m : List (κ × α)) (k : κ) (v : α), lookupA (insertA m k v) k = some v
  | [], k, v => by simp [insertA, lookupA_cons]
  | p :: m, k, v => by
      rw [insertA]
      by_cases hk : p.1 = k
      · simp [hk, lookupA_cons]
      · rw [if_neg hk, lookupA_cons, if_neg hk]
        exact lookupA_insertA_self m k v

theorem lookupA_insertA_ne [DecidableEq κ] {k k' : κ} (hne : k' ≠ k) :
    ∀ (m : List (κ × α)) (v : α), lookupA (insertA m k v) k' = lookupA m k'
  | [], v => by simp [insertA, lookupA_cons, lookupA_nil, Ne.symm hne]
  | p :: m, v => by
      rw [insertA]
      by_cases hk : p.1 = k
      · simp [hk, lookupA_cons, Ne.symm hne]
      · simp only [hk, if_false, lookupA_cons]
        by_cases hp : p.1 = k'
        · simp [hp]
        · simp only [hp, if_false]
          exact lookupA_insertA_ne hne m v

theorem keysA_insertA_of_isSome [DecidableEq κ] :
    ∀ {m : List (κ × α)} {k : κ} (v : α), (lookupA m k).isSome →
      keysA (insertA m k v) = keysA m
  | [], k, v, h => by simp [lookupA_nil] at h
  | p :: m, k, v, h => by
      rw [insertA]
      by_cases hk : p.1 = k
      · simp [hk, keysA]
      · rw [lookupA_cons] at h
        simp only [hk, if_false] at h ⊢
        simp only [keysA, List.map_cons]
        rw [show List.map Prod.fst (insertA m k v) = keysA (insertA m k v) from rfl,
          keysA_insertA_of_isSome v h]
        rfl

theorem keysA_insertA_of_none [DecidableEq κ] :
    ∀ {m : List (κ × α)} {k : κ} (v : α), lookupA m k = none →
      keysA (insertA m k v) = keysA m ++ [k]
  | [], k, v, _ => rfl
  | p :: m, k, v, h => by
      rw [lookupA_cons] at h
      rw [insertA]
      by_cases hk : p.1 = k
      · simp [hk] at h
      · simp only [hk, if_false] at h ⊢
        simp only [keysA, List.map_cons, List.cons_append]
        rw [show List.map Prod.fst (insertA m k v) = keysA (insertA m k v) from rfl,
          keysA_insertA_of_none v h]
        rfl

theorem nodup_keysA_insertA [DecidableEq κ] {m : List (κ × α)} {k : κ} (v : α)
    (h : (keysA m).Nodup) : (keysA (insertA m k v)).Nodup := by
  cases hl : lookupA m k with
  | some w =>
      rw [keysA_insertA_of_isSome v (by simp [hl])]
      exact h
  | none =>
      rw [keysA_insertA_of_none v hl]
      refine List.Nodup.append h (List.nodup_singleton k) ?_
      intro a ha hb
      rw [List.mem_singleton] at hb
      subst hb
      have := lookupA_isSome_of_mem_keysA ha
      rw [hl] at this
      simp at this

theorem mem_insertA [DecidableEq κ] :
    ∀ {m : List (κ × α)} {k : κ} {v : α} {p : κ × α}, (keysA m).Nodup →
      p ∈ insertA m k v → p = (k, v) ∨ (p ∈ m ∧ p.1 ≠ k)
  | [], k, v, p, _, h => by
      rw [insertA, List.mem_singleton] at h
      exact Or.inl h
  | q :: m, k, v, p, hnd, h => by
      simp only [keysA, List.map_cons, List.nodup_cons] at hnd
      rw [insertA] at h
      by_cases hk : q.1 = k
      · rw [if_pos hk] at h
        rcases List.mem_cons.mp h with h | h
        · exact Or.inl h
        · right
          refine ⟨List.mem_cons_of_mem q h, ?_⟩
          intro he
          exact hnd.1 (hk ▸ he ▸ List.mem_map_of_mem Prod.fst h)
      · simp only [hk, if_false] at h
        rcases List.mem_cons.mp h with h | h
        · subst h
          exact Or.inr ⟨List.mem_cons_self p m, hk⟩
        · rcases mem_insertA hnd.2 h with h' | h'
          · exact Or.inl h'
          · exact Or.inr ⟨List.mem_cons_of_mem q h'.1, h'.2⟩

theorem keysA_scanExec (t : Table) : keysA (scanExec t) = keysA t.columns := by
  simp [keysA, scanExec]

theorem lookupA_scanExec (t : Table) (name : String) :
    lookupA (scanExec t) name = (lookupA t.columns name).map Column.data := by
  obtain ⟨cols⟩ := t
  induction cols with
  | nil => rfl
  | cons p rest ih =>
      simp only [scanExec, List.map_cons, lookupA_cons]
      by_cases hk : p.1 = name
      · simp [hk]
      · simpa [hk] using ih

theorem keysA_projectExec (cols : List String) :
    ∀ c : Chunk, keysA (projectExec cols c) = (keysA c).filter (fun n => cols.contains n)
  | [] => rfl
  | p :: c => by
      simp only [projectExec, keysA, List.map_cons, List.filter_cons]
      cases hp : cols.contains p.1 with
      | true =>
          simp only [hp, if_true]
          simpa [projectExec, keysA] using keysA_projectExec cols c
      | false =>
          simp only [hp, if_false, Bool.false_eq_true]
          simpa [projectExec, keysA] using keysA_projectExec cols c

theorem projectExec_projectExec (cols : List String) (c : Chunk) :
    projectExec cols (projectExec cols c) = projectExec cols c := by
  simp only [projectExec, List.filter_filter, Bool.and_self]

theorem projectExec_dedup (cols : List String) (c : Chunk) :
    projectExec cols.dedup c = projectExec cols c := by
  simp only [projectExec]
  apply List.filter_congr
  intro p _
  rw [Bool.eq_iff_iff]
  simp only [List.elem_iff, List.mem_dedup]

/-- C5: for every Tabular Store `T`, Scan(T) executes successfully and yields
a Result Chunk containing exactly `T`'s columns and rows, unmodified: the
output's column-name list equals the store's, and every column's value
sequence is exactly the store column's data, row for row in the store's row
order. -/
theorem scan_identity (t : Table) :
    PlanNode.execute (PlanNode.scan t) = some (scanExec t) ∧
    keysA (scanExec t) = keysA t.columns ∧
    (∀ name, lookupA (scanExec t) name = (lookupA t.columns name).map Column.data) :=
  ⟨rfl, keysA_scanExec t, fun name => lookupA_scanExec t name⟩

/-- C9: projection is idempotent — `Project(Project(X, cols), cols)` executes
to the same Result Chunk as `Project(X, cols)`; moreover requested columns
absent from the child are silently omitted (the output's column names are
exactly the child's names that occur in `cols`), and duplicate requested
names collapse (projecting on `cols.dedup` is the same operation). -/
theorem project_idempotent (x : PlanNode) (cols : List String) :
    PlanNode.execute (PlanNode.project (PlanNode.project x cols) cols) =
      PlanNode.execute (PlanNode.project x cols) ∧
    (∀ c : Chunk,
      keysA (projectExec cols c) = (keysA c).filter (fun n => cols.contains n)) ∧
    (∀ c : Chunk, projectExec cols.dedup c = projectExec cols c) := by
  refine ⟨?_, keysA_projectExec cols, fun c => projectExec_dedup cols c⟩
  simp only [PlanNode.execute]
  cases PlanNode.execute x with
  | none => rfl
  | some c => simp [projectExec_projectExec]

/-- C8: translating the query `SELECT region FROM t WHERE region = 'East'`
(whose sqlparser AST is the inlined `SqlQuery`) against the sample table
`region=[East,West,East]`, `sales=[100,200,300]` and executing the resulting
plan yields the Result Chunk `region=[East,East]`. -/
theorem translation_scenario_east :
    (parse_sql_to_plan
        ⟨some (SqlExpr.BinaryOp (SqlExpr.Identifier "region") BinaryOperator.Eq
            (SqlExpr.SingleQuotedString "East")), [],
          [SelectItem.UnnamedExpr (SqlExpr.Identifier "region")]⟩ sampleTable).bind
      PlanNode.execute = some [("region", ["East", "East"])] := by
  rfl

/-- C3: the code diverges from the claim.  For the query
`SELECT region FROM t WHERE region > 'East'` translation succeeds, the
produced plan contains no Filter node, and executing it returns the full
projected column — the unsupported WHERE clause is silently ignored, not
surfaced as a typed TranslationError.  For `SELECT avg(sales) FROM t GROUP BY
region`, translation aborts (`none` models the source's failure: `"avg"` maps
to `AggregateFunction::Avg`, a variant absent from the plan enum) instead of
returning a typed error. -/
theorem unsupported_where_silent_noop :
    ((parse_sql_to_plan
        ⟨some (SqlExpr.BinaryOp (SqlExpr.Identifier "region") BinaryOperator.Gt
            (SqlExpr.SingleQuotedString "East")), [],
          [SelectItem.UnnamedExpr (SqlExpr.Identifier "region")]⟩ sampleTable).map
      containsFilter = some false) ∧
    ((parse_sql_to_plan
        ⟨some (SqlExpr.BinaryOp (SqlExpr.Identifier "region") BinaryOperator.Gt
            (SqlExpr.SingleQuotedString "East")), [],
          [SelectItem.UnnamedExpr (SqlExpr.Identifier "region")]⟩ sampleTable).bind
      PlanNode.execute = some [("region", ["East", "West", "East"])]) ∧
    ((parse_sql_to_plan
        ⟨none, [SqlExpr.Identifier "region"],
          [SelectItem.UnnamedExpr (SqlExpr.Function "avg" ["sales"])]⟩
        sampleTable).isNone = true) :=
  ⟨rfl, rfl, by decide⟩

theorem equalLens_iff {c : Chunk} :
    equalLens c = true ↔ ∀ p ∈ c, p.2.length = numRows c := by
  simp [equalLens, List.all_eq_true]

theorem buildRow_isSome {c : Chunk} {i : Nat} (h : equalLens c = true)
    (hi : i < numRows c) : ∃ r, buildRow c i = some r := by
  apply mapO_eq_some_of_forall
  intro p hp
  have hlen := (equalLens_iff.mp h) p hp
  have hlt : i < p.2.length := by rw [hlen]; exact hi
  have hv := List.get?_eq_get hlt
  rw [hv]
  rfl

theorem forall₂_eq_map {R : α → β → Prop} {g : β → α} {l : List α}
    {l' : List β} (h : List.Forall₂ R l l') (hg : ∀ a b, R a b → a = g b) :
    l = l'.map g := by
  induction h with
  | nil => rfl
  | cons hr _ ih => simp only [List.map_cons]; rw [← hg _ _ hr, ih]

theorem forall₂_mem_right {R : α → β → Prop} {l : List α} {l' : List β}
    (h : List.Forall₂ R l l') {b : β} (hb : b ∈ l') : ∃ a ∈ l, R a b := by
  induction h with
  | nil => exact absurd hb (List.not_mem_nil b)
  | cons hr _ ih =>
      rcases List.mem_cons.mp hb with hb | hb
      · exact ⟨_, List.mem_cons_self _ _, hb ▸ hr⟩
      · obtain ⟨a, ha, har⟩ := ih hb
        exact ⟨a, List.mem_cons_of_mem _ ha, har⟩

theorem filterMap_if_sublist :
    ∀ l : List (Nat × Bool),
      List.Sublist (l.filterMap (fun p => if p.2 then some p.1 else none))
        (l.map Prod.fst)
  | [] => List.Sublist.refl []
  | (i, b) :: l => by
      cases b with
      | true =>
          show List.Sublist (i :: List.filterMap _ l) (i :: List.map _ l)
          exact List.Sublist.cons₂ i (filterMap_if_sublist l)
      | false =>
          show List.Sublist (List.filterMap _ l) (i :: List.map _ l)
          exact List.Sublist.cons i (filterMap_if_sublist l)

theorem filterMap_if_all_true :
    ∀ {l : List (Nat × Bool)}, (∀ p ∈ l, p.2 = true) →
      l.filterMap (fun p => if p.2 then some p.1 else none) = l.map Prod.fst
  | [], _ => rfl
  | (i, b) :: l, h => by
      have hb : b = true := h (i, b) (List.mem_cons_self _ _)
      subst hb
      show i :: List.filterMap _ l = i :: List.map _ l
      rw [filterMap_if_all_true (fun q hq => h q (List.mem_cons_of_mem _ hq))]

theorem filterMap_if_all_false :
    ∀ {l : List (Nat × Bool)}, (∀ p ∈ l, p.2 = false) →
      l.filterMap (fun p => if p.2 then some p.1 else none) = []
  | [], _ => rfl
  | (i, b) :: l, h => by
      have hb : b = false := h (i, b) (List.mem_cons_self _ _)
      subst hb
      show List.filterMap _ l = []
      exact filterMap_if_all_false (fun q hq => h q (List.mem_cons_of_mem _ hq))

theorem range_filterMap_get :
    ∀ v : List String, (List.range v.length).filterMap (fun i => v.get? i) = v
  | [] => rfl
  | a :: v => by
      have h1 : List.range (a :: v).length = 0 :: (List.range v.length).map Nat.succ := by
        rw [List.length_cons, List.range_succ_eq_map]
      rw [h1]
      have h2 : (0 :: (List.range v.length).map Nat.succ).filterMap
          (fun i => (a :: v).get? i) =
          a :: ((List.range v.length).map Nat.succ).filterMap
            (fun i => (a :: v).get? i) := rfl
      rw [h2]
      have h3 : ((List.range v.length).map Nat.succ).filterMap
          (fun i => (a :: v).get? i)
          = (List.range v.length).filterMap (fun i => v.get? i) := by
        rw [List.filterMap_map]
        exact congrArg (fun f => List.filterMap f (List.range v.length))
          (funext (fun i =>
            show (a :: v).get? (Nat.succ i) = v.get? i from List.get?_cons_succ))
      rw [h3, range_filterMap_get v]

theorem sublist_filterMap_get {v : List String} {kept : List Nat}
    (h : List.Sublist kept (List.range v.length)) :
    List.Sublist (kept.filterMap (fun i => v.get? i)) v := by
  have := List.Sublist.filterMap (fun i => v.get? i) h
  rwa [range_filterMap_get v] at this

theorem filterMap_get_length {v : List String} {kept : List Nat}
    (h : ∀ i ∈ kept, i < v.length) :
    (kept.filterMap (fun i => v.get? i)).length = kept.length := by
  induction kept with
  | nil => rfl
  | cons i l ih =>
      have hi := h i (List.mem_cons_self i l)
      have ha := List.get?_eq_get hi
      simp only [List.filterMap_cons, ha, List.length_cons]
      rw [ih (fun j hj => h j (List.mem_cons_of_mem i hj))]

theorem lookupA_map_snd (sel : List String → List String) :
    ∀ (c : Chunk) (k : String),
      lookupA (c.map (fun p => (p.1, sel p.2))) k = (lookupA c k).map sel
  | [], _ => rfl
  | p :: c, k => by
      simp only [List.map_cons, lookupA_cons]
      by_cases hk : p.1 = k
      · simp [hk]
      · simpa [hk] using lookupA_map_snd sel c k

theorem keysA_map_snd (sel : List String → List String) (c : Chunk) :
    keysA (c.map (fun p => (p.1, sel p.2))) = keysA c := by
  simp [keysA, List.map_map, Function.comp]

theorem filterExec_some (pred : RowView → Bool) {c : Chunk}
    (h : equalLens c = true) :
    ∃ kept : List Nat, List.Sublist kept (List.range (numRows c)) ∧
      ((∀ rv, pred rv = true) → kept = List.range (numRows c)) ∧
      ((∀ rv, pred rv = false) → kept = []) ∧
      filterExec pred c =
        some (c.map (fun p => (p.1, kept.filterMap (fun i => p.2.get? i)))) := by
  have hflags : ∀ i ∈ List.range (numRows c),
      ((buildRow c i).map (fun r => (i, pred (rowFun r)))).isSome := by
    intro i hi
    obtain ⟨r, hr⟩ := buildRow_isSome h (List.mem_range.mp hi)
    simp [hr]
  obtain ⟨flags, hfl⟩ := mapO_eq_some_of_forall hflags
  have hrel := mapO_forall₂ hfl
  have hfst : List.range (numRows c) = flags.map Prod.fst := by
    refine forall₂_eq_map hrel ?_
    intro i p hp
    cases hb : buildRow c i with
    | none => rw [hb] at hp; exact absurd hp (by simp)
    | some r =>
        rw [hb] at hp
        have : (i, pred (rowFun r)) = p := by simpa using hp
        rw [← this]
  refine ⟨flags.filterMap (fun p => if p.2 then some p.1 else none),
    hfst ▸ filterMap_if_sublist flags, ?_, ?_, ?_⟩
  · intro ht
    rw [filterMap_if_all_true, hfst]
    intro p hp
    obtain ⟨i, _, hip⟩ := forall₂_mem_right hrel hp
    cases hb : buildRow c i with
    | none => rw [hb] at hip; exact absurd hip (by simp)
    | some r =>
        rw [hb] at hip
        have : (i, pred (rowFun r)) = p := by simpa using hip
        rw [← this]
        exact ht (rowFun r)
  · intro hf
    apply filterMap_if_all_false
    intro p hp
    obtain ⟨i, _, hip⟩ := forall₂_mem_right hrel hp
    cases hb : buildRow c i with
    | none => rw [hb] at hip; exact absurd hip (by simp)
    | some r =>
        rw [hb] at hip
        have : (i, pred (rowFun r)) = p := by simpa using hip
        rw [← this]
        exact hf (rowFun r)
  · simp only [filterExec, hfl]
    rfl

/-- C4: executing a Filter node on a child whose output chunk has
equal-length columns succeeds and yields an output whose column-name list
equals the child's, whose row count is at most the child's, and in which
every output column is a sublist (same order) of the corresponding child
column, all columns selected at the same surviving row indices; an
always-true predicate yields the child chunk itself and an always-false
predicate yields empty columns under the full header set. -/
theorem filter_laws (x : PlanNode) (pred : RowView → Bool) (c : Chunk)
    (hx : PlanNode.execute x = some c) (h : equalLens c = true) :
    ∃ out, PlanNode.execute (PlanNode.filter x pred) = some out ∧
      keysA out = keysA c ∧
      numRows out ≤ numRows c ∧
      (∀ name v w, lookupA c name = some v → lookupA out name = some w →
        w.Sublist v) ∧
      ((∀ rv, pred rv = true) → out = c) ∧
      ((∀ rv, pred rv = false) → ∀ p ∈ out, p.2 = []) := by
  obtain ⟨kept, hsub, htrue, hfalse, hexec⟩ := filterExec_some pred h
  refine ⟨c.map (fun p => (p.1, kept.filterMap (fun i => p.2.get? i))),
    ?_, keysA_map_snd (fun v => kept.filterMap (fun i => v.get? i)) c, ?_, ?_, ?_, ?_⟩
  · simp only [PlanNode.execute, hx, Option.some_bind]
    exact hexec
  · cases c with
    | nil => exact Nat.le_refl 0
    | cons p c =>
        simp only [numRows, List.map_cons]
        have hsub' : List.Sublist kept (List.range p.2.length) := hsub
        calc (kept.filterMap (fun i => p.2.get? i)).length
            ≤ ((List.range p.2.length).filterMap (fun i => p.2.get? i)).length :=
              (List.Sublist.filterMap _ hsub').length_le
          _ = p.2.length := by rw [range_filterMap_get p.2]
  · intro name v w hv hw
    rw [lookupA_map_snd (fun u => kept.filterMap (fun i => u.get? i)) c name, hv] at hw
    have : kept.filterMap (fun i => v.get? i) = w := by simpa using hw
    rw [← this]
    apply sublist_filterMap_get
    have hvlen : v.length = numRows c :=
      (equalLens_iff.mp h) (name, v) (mem_of_lookupA_eq_some hv)
    rw [hvlen]
    exact hsub
  · intro ht
    rw [htrue ht]
    have : ∀ p : String × List String, p ∈ c →
        (p.1, (List.range (numRows c)).filterMap (fun i => p.2.get? i)) = p := by
      intro p hp
      have hlen := (equalLens_iff.mp h) p hp
      rw [← hlen, range_filterMap_get p.2]
    calc c.map (fun p => (p.1, (List.range (numRows c)).filterMap (fun i => p.2.get? i)))
        = c.map id := List.map_congr_left this
      _ = c := List.map_id c
  · intro hf p hp
    rw [hfalse hf] at hp
    obtain ⟨q, _, hq⟩ := List.mem_map.mp hp
    rw [← hq]
    rfl

theorem someBind (a : α) (f : α → Option β) : (some a).bind f = f a := rfl

theorem someBindM (a : α) (f : α → Option β) :
    ((some a : Option α) >>= f) = f a := rfl

theorem mem_keysA_iff [DecidableEq κ] {m : List (κ × α)} {k : κ} :
    k ∈ keysA m ↔ (lookupA m k).isSome := by
  constructor
  · exact lookupA_isSome_of_mem_keysA
  · intro h
    obtain ⟨v, hv⟩ := Option.isSome_iff_exists.mp h
    exact mem_keysA_of_lookupA hv

theorem lookupA_insertFold [DecidableEq κ] (v : α) :
    ∀ (ks : List κ) (m : List (κ × α)) (k : κ),
      lookupA (ks.foldl (fun m k' => insertA m k' v) m) k =
        if k ∈ ks then some v else lookupA m k
  | [], m, k => by simp
  | k' :: ks, m, k => by
      simp only [List.foldl_cons]
      rw [lookupA_insertFold v ks (insertA m k' v) k]
      by_cases hks : k ∈ ks
      · simp [hks, List.mem_cons]
      · by_cases hk' : k = k'
        · subst hk'
          simp [hks, lookupA_insertA_self]
        · rw [lookupA_insertA_ne hk']
          simp [hks, hk', List.mem_cons]

theorem nodup_keysA_insertFold [DecidableEq κ] (v : α) :
    ∀ (ks : List κ) (m : List (κ × α)), (keysA m).Nodup →
      (keysA (ks.foldl (fun m k' => insertA m k' v) m)).Nodup
  | [], _, h => h
  | k' :: ks, m, h =>
      nodup_keysA_insertFold v ks (insertA m k' v) (nodup_keysA_insertA v h)

theorem keysA_insertFold_fresh [DecidableEq κ] (v : α) :
    ∀ (ks : List κ) (m : List (κ × α)), ks.Nodup → (∀ k ∈ ks, k ∉ keysA m) →
      keysA (ks.foldl (fun m k' => insertA m k' v) m) = keysA m ++ ks
  | [], m, _, _ => by simp
  | k' :: ks, m, hnd, hf => by
      simp only [List.foldl_cons]
      have hk' : lookupA m k' = none := by
        cases hl : lookupA m k' with
        | none => rfl
        | some w =>
            exact absurd (mem_keysA_of_lookupA hl) (hf k' (List.mem_cons_self _ _))
      have hnd' := List.nodup_cons.mp hnd
      rw [keysA_insertFold_fresh v ks (insertA m k' v) hnd'.2 ?fresh]
      · rw [keysA_insertA_of_none v hk']
        simp
      case fresh =>
        intro k hk
        rw [mem_keysA_iff]
        have hne : k ≠ k' := fun he => hnd'.1 (he ▸ hk)
        rw [lookupA_insertA_ne hne]
        rw [← mem_keysA_iff]
        exact hf k (List.mem_cons_of_mem _ hk)

theorem initState_eq_fold (aggs : List (String × AggregateFunction)) :
    initState aggs = (keysA aggs).foldl (fun st k => insertA st k 0) [] := by
  rw [initState, keysA, List.foldl_map]

theorem lookupA_initState (aggs : List (String × AggregateFunction))
    (col : String) :
    lookupA (initState aggs) col =
      if col ∈ keysA aggs then some 0 else none := by
  rw [initState_eq_fold, lookupA_insertFold]
  rfl

theorem keysA_initState_nodup (aggs : List (String × AggregateFunction)) :
    (keysA (initState aggs)).Nodup := by
  rw [initState_eq_fold]
  exact nodup_keysA_insertFold 0 (keysA aggs) [] List.nodup_nil

theorem mem_keysA_initState {aggs : List (String × AggregateFunction)}
    {col : String} : col ∈ keysA (initState aggs) ↔ col ∈ keysA aggs := by
  rw [mem_keysA_iff, lookupA_initState]
  by_cases h : col ∈ keysA aggs <;> simp [h]

theorem initResult_eq_fold (gb : List String)
    (aggs : List (String × AggregateFunction)) :
    initResult gb aggs = (keysA aggs).foldl (fun r k => insertA r k [])
      (gb.foldl (fun r col => insertA r col []) []) := by
  rw [initResult, keysA, List.foldl_map]

theorem lookupA_initResult (gb : List String)
    (aggs : List (String × AggregateFunction)) (col : String) :
    lookupA (initResult gb aggs) col =
      if col ∈ keysA aggs then some [] else
        if col ∈ gb then some [] else none := by
  rw [initResult_eq_fold, lookupA_insertFold, lookupA_insertFold]
  rfl

theorem keysA_initResult_nodup (gb : List String)
    (aggs : List (String × AggregateFunction)) :
    (keysA (initResult gb aggs)).Nodup := by
  rw [initResult_eq_fold]
  exact nodup_keysA_insertFold [] (keysA aggs) _
    (nodup_keysA_insertFold [] gb [] List.nodup_nil)

theorem mem_keysA_initResult {gb : List String}
    {aggs : List (String × AggregateFunction)} {col : String} :
    col ∈ keysA (initResult gb aggs) ↔ col ∈ gb ∨ col ∈ keysA aggs := by
  rw [mem_keysA_iff, lookupA_initResult]
  by_cases h1 : col ∈ keysA aggs <;> by_cases h2 : col ∈ gb <;> simp [h1, h2]

theorem keysA_initResult_of_fresh {gb : List String}
    {aggs : List (String × AggregateFunction)} (hgb : gb.Nodup)
    (haggnd : (keysA aggs).Nodup) (hdisj : ∀ k ∈ keysA aggs, k ∉ gb) :
    keysA (initResult gb aggs) = gb ++ keysA aggs := by
  rw [initResult_eq_fold]
  have h1 : keysA (gb.foldl (fun r col => insertA r col ([] : List String)) []) = gb := by
    have := keysA_insertFold_fresh ([] : List String) gb [] hgb (by intro k _; simp [keysA])
    simpa using this
  rw [keysA_insertFold_fresh ([] : List String) (keysA aggs) _ haggnd ?fresh, h1]
  case fresh =>
    intro k hk
    rw [h1]
    exact hdisj k hk

theorem cell_isSome {c : Chunk} {col : String} {i : Nat}
    (hk : hasKey c col = true) (hlen : equalLens c = true)
    (hi : i < numRows c) : (cell c col i).isSome := by
  obtain ⟨v, hv⟩ := hasKey_iff_lookupA.mp hk
  have hvlen : v.length = numRows c :=
    (equalLens_iff.mp hlen) (col, v) (mem_of_lookupA_eq_some hv)
  rw [cell, hv, someBind, List.get?_eq_get (by rw [hvlen]; exact hi)]
  rfl

theorem accumPair_keysA {c : Chunk} {i : Nat} {st st' : AggState}
    {p : String × AggregateFunction} (h : accumPair c i st p = some st') :
    keysA st' = keysA st := by
  obtain ⟨col, f⟩ := p
  rw [accumPair] at h
  cases hc : cell c col i with
  | none => rw [hc] at h; exact absurd h (by simp)
  | some v =>
      rw [hc, someBindM] at h
      cases f with
      | Count => exact keysA_modifyA h
      | Sum =>
          cases hp : parseNum v with
          | some q => rw [hp] at h; exact keysA_modifyA h
          | none =>
              rw [hp] at h
              obtain rfl : st = st' := by simpa using h
              rfl

theorem accumPair_isSome {c : Chunk} {i : Nat} {st : AggState}
    {p : String × AggregateFunction} (hc : (cell c p.1 i).isSome)
    (hmem : p.1 ∈ keysA st) : (accumPair c i st p).isSome := by
  obtain ⟨col, f⟩ := p
  obtain ⟨v, hv⟩ := Option.isSome_iff_exists.mp hc
  rw [accumPair, hv, someBindM]
  have hl : (lookupA st col).isSome := lookupA_isSome_of_mem_keysA hmem
  cases f with
  | Count => exact modifyA_isSome hl
  | Sum =>
      cases hp : parseNum v with
      | some q => exact modifyA_isSome hl
      | none => rfl

theorem accumPair_lookup_self {c : Chunk} {i : Nat} {st st' : AggState}
    {col : String} {f : AggregateFunction}
    (h : accumPair c i st (col, f) = some st') :
    lookupA st' col = (lookupA st col).map (fun x => x + contribOf f c col i) := by
  rw [accumPair] at h
  cases hc : cell c col i with
  | none => rw [hc] at h; exact absurd h (by simp)
  | some v =>
      rw [hc, someBindM] at h
      cases f with
      | Count =>
          have := lookupA_modifyA_self h
          simpa [contribOf] using this
      | Sum =>
          cases hp : parseNum v with
          | some q =>
              rw [hp] at h
              have := lookupA_modifyA_self h
              have hcontrib :
                  contribOf AggregateFunction.Sum c col i = q := by
                simp [contribOf, hc, hp]
              rw [hcontrib]
              exact this
          | none =>
              rw [hp] at h
              obtain rfl : st = st' := by simpa using h
              have hcontrib :
                  contribOf AggregateFunction.Sum c col i = 0 := by
                simp [contribOf, hc, hp]
              rw [hcontrib]
              cases lookupA st col <;> simp

theorem accumPair_lookup_ne {c : Chunk} {i : Nat} {st st' : AggState}
    {col : String} {p : String × AggregateFunction}
    (h : accumPair c i st p = some st') (hne : p.1 ≠ col) :
    lookupA st' col = lookupA st col := by
  obtain ⟨c0, f⟩ := p
  rw [accumPair] at h
  cases hc : cell c c0 i with
  | none => rw [hc] at h; exact absurd h (by simp)
  | some v =>
      rw [hc, someBindM] at h
      cases f with
      | Count => exact lookupA_modifyA_ne h (Ne.symm hne)
      | Sum =>
          cases hp : parseNum v with
          | some q => rw [hp] at h; exact lookupA_modifyA_ne h (Ne.symm hne)
          | none =>
              rw [hp] at h
              obtain rfl : st = st' := by simpa using h
              rfl

theorem accumRow_keysA {c : Chunk} {i : Nat} :
    ∀ {aggs : List (String × AggregateFunction)} {st st' : AggState},
      accumRow aggs c i st = some st' → keysA st' = keysA st
  | [], st, st', h => by
      obtain rfl : st = st' := by simpa [accumRow, foldO_nil] using h
      rfl
  | p :: aggs, st, st', h => by
      rw [accumRow, foldO_cons] at h
      cases ha : accumPair c i st p with
      | none => rw [ha] at h; exact absurd h (by simp)
      | some st₁ =>
          rw [ha, someBind] at h
          have h2 : accumRow aggs c i st₁ = some st' := h
          rw [accumRow_keysA h2, accumPair_keysA ha]

theorem accumRow_isSome (c : Chunk) (i : Nat) :
    ∀ (aggs : List (String × AggregateFunction)) (st : AggState),
      (∀ p ∈ aggs, (cell c p.1 i).isSome) →
      (∀ p ∈ aggs, p.1 ∈ keysA st) →
      ∃ st', accumRow aggs c i st = some st'
  | [], st, _, _ => ⟨st, rfl⟩
  | p :: aggs, st, hcell, hkeys => by
      have h1 : (accumPair c i st p).isSome :=
        accumPair_isSome (hcell p (List.mem_cons_self _ _))
          (hkeys p (List.mem_cons_self _ _))
      obtain ⟨st₁, hst₁⟩ := Option.isSome_iff_exists.mp h1
      obtain ⟨st', hst'⟩ := accumRow_isSome c i aggs st₁
        (fun q hq => hcell q (List.mem_cons_of_mem _ hq))
        (fun q hq => by
          rw [accumPair_keysA hst₁]
          exact hkeys q (List.mem_cons_of_mem _ hq))
      refine ⟨st', ?_⟩
      rw [accumRow, foldO_cons, hst₁, someBind]
      exact hst'

theorem accumRow_lookup_of_count_zero {c : Chunk} {i : Nat} {col : String} :
    ∀ {aggs : List (String × AggregateFunction)} {st st' : AggState},
      accumRow aggs c i st = some st' → (keysA aggs).count col = 0 →
      lookupA st' col = lookupA st col
  | [], st, st', h, _ => by
      obtain rfl : st = st' := by simpa [accumRow, foldO_nil] using h
      rfl
  | p :: aggs, st, st', h, hcount => by
      have hne : p.1 ≠ col := by
        intro he
        rw [show keysA (p :: aggs) = p.1 :: keysA aggs from rfl, he,
          List.count_cons_self] at hcount
        omega
      have htail : (keysA aggs).count col = 0 := by
        rw [show keysA (p :: aggs) = p.1 :: keysA aggs from rfl,
          List.count_cons_of_ne (fun he => hne he.symm)] at hcount
        exact hcount
      rw [accumRow, foldO_cons] at h
      cases ha : accumPair c i st p with
      | none => rw [ha] at h; exact absurd h (by simp)
      | some st₁ =>
          rw [ha, someBind] at h
          have h2 : accumRow aggs c i st₁ = some st' := h
          rw [accumRow_lookup_of_count_zero h2 htail,
            accumPair_lookup_ne ha hne]

theorem accumRow_lookup_of_unique {c : Chunk} {i : Nat} {col : String}
    {f : AggregateFunction} :
    ∀ {aggs : List (String × AggregateFunction)} {st st' : AggState},
      accumRow aggs c i st = some st' → (keysA aggs).count col = 1 →
      (col, f) ∈ aggs →
      lookupA st' col = (lookupA st col).map (fun x => x + contribOf f c col i)
  | [], _, _, _, _, hmem => absurd hmem (List.not_mem_nil _)
  | p :: aggs, st, st', h, hcount, hmem => by
      rw [accumRow, foldO_cons] at h
      by_cases hpc : p.1 = col
      · have htail : (keysA aggs).count col = 0 := by
          rw [show keysA (p :: aggs) = p.1 :: keysA aggs from rfl, hpc,
            List.count_cons_self] at hcount
          omega
        have hp : p = (col, f) := by
          rcases List.mem_cons.mp hmem with hm | hm
          · exact hm.symm
          · exfalso
            have hcolmem : col ∈ keysA aggs := List.mem_map_of_mem Prod.fst hm
            rw [List.count_eq_zero] at htail
            exact htail hcolmem
        subst hp
        cases ha : accumPair c i st (col, f) with
        | none => rw [ha] at h; exact absurd h (by simp)
        | some st₁ =>
            rw [ha, someBind] at h
            have h2 : accumRow aggs c i st₁ = some st' := h
            rw [accumRow_lookup_of_count_zero h2 htail,
              accumPair_lookup_self ha]
      · have htail : (keysA aggs).count col = 1 := by
          rw [show keysA (p :: aggs) = p.1 :: keysA aggs from rfl,
            List.count_cons_of_ne (fun he => hpc he.symm)] at hcount
          exact hcount
        have hmem' : (col, f) ∈ aggs := by
          rcases List.mem_cons.mp hmem with hm | hm
          · exact absurd (congrArg Prod.fst hm).symm hpc
          · exact hm
        cases ha : accumPair c i st p with
        | none => rw [ha] at h; exact absurd h (by simp)
        | some st₁ =>
            rw [ha, someBind] at h
            have h2 : accumRow aggs c i st₁ = some st' := h
            rw [accumRow_lookup_of_unique h2 htail hmem',
              accumPair_lookup_ne ha hpc]

theorem hasKey_insertA_self [DecidableEq κ] (m : List (κ × α)) (k : κ) (v : α) :
    hasKey (insertA m k v) k = true := by
  rw [hasKey, lookupA_insertA_self]
  rfl

theorem hasKey_insertA_of_hasKey [DecidableEq κ] {m : List (κ × α)} {k : κ}
    (k' : κ) (v : α) (h : hasKey m k = true) :
    hasKey (insertA m k' v) k = true := by
  by_cases he : k = k'
  · subst he
    exact hasKey_insertA_self m k v
  · rw [hasKey, lookupA_insertA_ne he]
    exact h

theorem insertA_of_none [DecidableEq κ] :
    ∀ {m : List (κ × α)} {k : κ} (v : α), lookupA m k = none →
      insertA m k v = m ++ [(k, v)]
  | [], k, v, _ => rfl
  | p :: m, k, v, h => by
      rw [lookupA_cons] at h
      by_cases hk : p.1 = k
      · simp [hk] at h
      · simp only [hk, if_false] at h
        rw [insertA]
        simp only [hk, if_false]
        rw [insertA_of_none v h]
        rfl

theorem foldO_singleton (f : β → α → Option β) (b : β) (a : α) :
    foldO f b [a] = f b a := by
  cases h : f b a <;> simp [foldO, h]

theorem aggGroupsUpTo_succ (gb : List String)
    (aggs : List (String × AggregateFunction)) (c : Chunk) (i : Nat) :
    aggGroupsUpTo gb aggs c (i+1) =
      (aggGroupsUpTo gb aggs c i).bind (fun groups => stepRow gb aggs c groups i) := by
  rw [aggGroupsUpTo, List.range_succ, foldO_append]
  simp only [foldO_singleton]
  rfl

theorem stepRow_some {gb : List String} {aggs : List (String × AggregateFunction)}
    {c : Chunk} {groups : Groups} {i : Nat} {groups' : Groups}
    (h : stepRow gb aggs c groups i = some groups') :
    ∃ key st', groupKey gb c i = some key ∧
      accumRow aggs c i ((lookupA groups key).getD (initState aggs)) = some st' ∧
      groups' = insertA groups key st' := by
  rw [stepRow] at h
  cases hk : groupKey gb c i with
  | none => rw [hk] at h; exact absurd h (by simp)
  | some key =>
      rw [hk] at h
      simp only [someBindM] at h
      cases ha : accumRow aggs c i ((lookupA groups key).getD (initState aggs)) with
      | none => rw [ha] at h; exact absurd h (by simp)
      | some st' =>
          rw [ha] at h
          simp only [someBindM] at h
          exact ⟨key, st', rfl, ha, by simpa using h.symm⟩

theorem aggGroupsUpTo_props {gb : List String}
    {aggs : List (String × AggregateFunction)} {c : Chunk} :
    ∀ {i : Nat} {groups : Groups}, aggGroupsUpTo gb aggs c i = some groups →
      (∀ g ∈ groups, g.1.length = gb.length) ∧
      (∀ g ∈ groups, keysA g.2 = keysA (initState aggs)) ∧
      (keysA groups).Nodup ∧
      (∀ j, j < i → ∃ k, groupKey gb c j = some k ∧ hasKey groups k = true)
  | 0, groups, h => by
      obtain rfl : ([] : Groups) = groups := by
        simpa [aggGroupsUpTo, foldO_nil] using h
      exact ⟨by simp, by simp, by simp [keysA], by omega⟩
  | i+1, groups, h => by
      rw [aggGroupsUpTo_succ] at h
      cases hg : aggGroupsUpTo gb aggs c i with
      | none => rw [hg] at h; exact absurd h (by simp)
      | some gs =>
          rw [hg, someBind] at h
          obtain ⟨hlen, hkeys, hnd, hcomp⟩ := aggGroupsUpTo_props hg
          obtain ⟨key, st', hkey, hacc, rfl⟩ := stepRow_some h
          have hkeylen : key.length = gb.length := mapO_length hkey
          have hkeys' : keysA st' = keysA (initState aggs) := by
            rw [accumRow_keysA hacc]
            cases hlook : lookupA gs key with
            | some st =>
                exact hkeys (key, st) (mem_of_lookupA_eq_some hlook)
            | none => rfl
          refine ⟨?_, ?_, nodup_keysA_insertA st' hnd, ?_⟩
          · intro g hg'
            rcases mem_insertA hnd hg' with rfl | ⟨hgmem, _⟩
            · exact hkeylen
            · exact hlen g hgmem
          · intro g hg'
            rcases mem_insertA hnd hg' with rfl | ⟨hgmem, _⟩
            · exact hkeys'
            · exact hkeys g hgmem
          · intro j hj
            rcases Nat.lt_succ_iff_lt_or_eq.mp hj with hj' | rfl
            · obtain ⟨k, hk1, hk2⟩ := hcomp j hj'
              exact ⟨k, hk1, hasKey_insertA_of_hasKey key st' hk2⟩
            · exact ⟨key, hkey, hasKey_insertA_self gs key st'⟩

theorem aggGroupsUpTo_total {gb : List String}
    {aggs : List (String × AggregateFunction)} {c : Chunk}
    (hlen : equalLens c = true)
    (hgb : ∀ col ∈ gb, hasKey c col = true)
    (hagg : ∀ p ∈ aggs, hasKey c p.1 = true) :
    ∀ i, i ≤ numRows c → ∃ groups, aggGroupsUpTo gb aggs c i = some groups
  | 0, _ => ⟨[], rfl⟩
  | i+1, hi => by
      obtain ⟨gs, hgs⟩ :=
        aggGroupsUpTo_total hlen hgb hagg i (Nat.le_of_succ_le hi)
      have hi' : i < numRows c := Nat.lt_of_succ_le hi
      obtain ⟨key, hkey⟩ : ∃ key, groupKey gb c i = some key := by
        apply mapO_eq_some_of_forall
        intro col hcol
        exact cell_isSome (hgb col hcol) hlen hi'
      have hkeys0 : keysA ((lookupA gs key).getD (initState aggs)) =
          keysA (initState aggs) := by
        cases hlook : lookupA gs key with
        | some st =>
            obtain ⟨_, hkeys, _, _⟩ := aggGroupsUpTo_props hgs
            exact hkeys (key, st) (mem_of_lookupA_eq_some hlook)
        | none => rfl
      obtain ⟨st', hst'⟩ :=
        accumRow_isSome c i aggs ((lookupA gs key).getD (initState aggs))
          (fun p hp => cell_isSome (hagg p hp) hlen hi')
          (fun p hp => by
            rw [hkeys0]
            exact mem_keysA_initState.mpr (List.mem_map_of_mem Prod.fst hp))
      refine ⟨insertA gs key st', ?_⟩
      rw [aggGroupsUpTo_succ, hgs, someBind, stepRow, hkey]
      simp only [someBindM]
      rw [hst']
      simp only [someBindM]
      rfl

theorem groupContrib_succ_self {gb : List String} {c : Chunk} {i : Nat}
    {key : List String} (f : AggregateFunction) (col : String)
    (h : groupKey gb c i = some key) :
    groupContrib gb f c col (i+1) key =
      groupContrib gb f c col i key + contribOf f c col i := by
  rw [groupContrib, groupContrib, List.range_succ, List.filter_append,
    List.map_append, List.sum_append]
  congr 1
  have hfil : List.filter (fun j => decide (groupKey gb c j = some key)) [i]
      = [i] := by
    simp [h]
  rw [hfil]
  simp

theorem groupContrib_succ_ne {gb : List String} {c : Chunk} {i : Nat}
    {key k' : List String} (f : AggregateFunction) (col : String)
    (h : groupKey gb c i = some key) (hne : key ≠ k') :
    groupContrib gb f c col (i+1) k' = groupContrib gb f c col i k' := by
  rw [groupContrib, groupContrib, List.range_succ, List.filter_append]
  have hfil : List.filter (fun j => decide (groupKey gb c j = some k')) [i]
      = [] := by
    simp [h, hne]
  rw [hfil, List.append_nil]

theorem groupContrib_of_no_match {gb : List String} {c : Chunk} {i : Nat}
    {key : List String} (f : AggregateFunction) (col : String)
    (h : ∀ j, j < i → groupKey gb c j ≠ some key) :
    groupContrib gb f c col i key = 0 := by
  rw [groupContrib]
  have hfil : List.filter (fun j => decide (groupKey gb c j = some key))
      (List.range i) = [] := by
    apply List.filter_eq_nil_iff.mpr
    intro j hj
    simp [h j (List.mem_range.mp hj)]
  rw [hfil]
  rfl

theorem aggGroupsUpTo_value {gb : List String}
    {aggs : List (String × AggregateFunction)} {c : Chunk} {col : String}
    {f : AggregateFunction}
    (hone : (keysA aggs).count col = 1) (hmem : (col, f) ∈ aggs) :
    ∀ {i : Nat} {groups : Groups}, aggGroupsUpTo gb aggs c i = some groups →
      ∀ g ∈ groups, lookupA g.2 col = some (groupContrib gb f c col i g.1)
  | 0, groups, h => by
      obtain rfl : ([] : Groups) = groups := by
        simpa [aggGroupsUpTo, foldO_nil] using h
      intro g hg
      exact absurd hg (List.not_mem_nil g)
  | i+1, groups, h => by
      rw [aggGroupsUpTo_succ] at h
      cases hg : aggGroupsUpTo gb aggs c i with
      | none => rw [hg] at h; exact absurd h (by simp)
      | some gs =>
          rw [hg, someBind] at h
          obtain ⟨_, hkeys, hnd, hcomp⟩ := aggGroupsUpTo_props hg
          obtain ⟨key, st', hkey, hacc, rfl⟩ := stepRow_some h
          intro g hg'
          rcases mem_insertA hnd hg' with rfl | ⟨hgmem, hgne⟩
          · cases hlook : lookupA gs key with
            | some st =>
                rw [hlook] at hacc
                simp only [Option.getD_some] at hacc
                have hst := aggGroupsUpTo_value hone hmem hg (key, st)
                  (mem_of_lookupA_eq_some hlook)
                have hv := accumRow_lookup_of_unique hacc hone hmem
                rw [hst] at hv
                rw [hv]
                simp only [Option.map_some']
                rw [groupContrib_succ_self f col hkey]
            | none =>
                rw [hlook] at hacc
                simp only [Option.getD_none] at hacc
                have hcolmem : col ∈ keysA aggs :=
                  List.mem_map_of_mem Prod.fst hmem
                have hinit : lookupA (initState aggs) col = some 0 := by
                  rw [lookupA_initState]
                  simp [hcolmem]
                have hv := accumRow_lookup_of_unique hacc hone hmem
                rw [hinit] at hv
                rw [hv]
                simp only [Option.map_some']
                have hzero : groupContrib gb f c col i key = 0 := by
                  apply groupContrib_of_no_match
                  intro j hj hkj
                  obtain ⟨k, hk1, hk2⟩ := hcomp j hj
                  rw [hkj] at hk1
                  obtain rfl : key = k := by simpa using hk1
                  obtain ⟨st0, hst0⟩ := hasKey_iff_lookupA.mp hk2
                  rw [hlook] at hst0
                  exact absurd hst0 (by simp)
                rw [groupContrib_succ_self f col hkey, hzero]
          · have hst := aggGroupsUpTo_value hone hmem hg g hgmem
            rw [hst]
            rw [groupContrib_succ_ne f col hkey (fun he => hgne (by rw [← he]))]

theorem lookupA_split [DecidableEq κ] :
    ∀ {m : List (κ × α)} {k : κ} {v : α}, lookupA m k = some v →
      ∃ l₁ l₂, m = l₁ ++ (k, v) :: l₂ ∧
        (∀ v' : α, insertA m k v' = l₁ ++ (k, v') :: l₂)
  | [], k, v, hl => by simp [lookupA_nil] at hl
  | p :: m, k, v, hl => by
      rw [lookupA_cons] at hl
      by_cases hk : p.1 = k
      · simp only [hk, if_true] at hl
        obtain rfl : p.2 = v := by simpa using hl
        refine ⟨[], m, ?_, ?_⟩
        · rw [List.nil_append]
          rw [show (k, p.2) = p from ?_]
          · obtain ⟨p1, p2⟩ := p
            rw [show (p1, p2).1 = p1 from rfl] at hk
            rw [hk]
        · intro v'
          rw [insertA]
          simp [hk]
      · simp only [hk, if_false] at hl
        obtain ⟨l₁, l₂, hm, hins⟩ := lookupA_split hl
        refine ⟨p :: l₁, l₂, by rw [List.cons_append, ← hm], ?_⟩
        intro v'
        rw [insertA]
        simp only [hk, if_false]
        rw [hins v', List.cons_append]

theorem F64.natCast_succ (n : Nat) : ((n + 1 : Nat) : F64) = (n : F64) + 1 := by
  show F64.mk _ _ = F64.mk _ _
  rw [F64.mk.injEq]
  constructor
  · show Int.ofNat (n + 1) = Int.ofNat n * ((1 : Nat) : Int) + 1 * ((1 : Nat) : Int)
    simp only [Int.ofNat_eq_coe, Nat.cast_one, Int.mul_one, Int.one_mul]
    push_cast
    ring
  · rfl

theorem aggGroupsUpTo_count_sum {gb : List String}
    {aggs : List (String × AggregateFunction)} {c : Chunk} {col : String}
    (hone : (keysA aggs).count col = 1)
    (hmem : (col, AggregateFunction.Count) ∈ aggs) :
    ∀ {i : Nat} {groups : Groups}, aggGroupsUpTo gb aggs c i = some groups →
      (groups.map (fun g => (lookupA g.2 col).getD 0)).sum = (i : F64)
  | 0, groups, h => by
      obtain rfl : ([] : Groups) = groups := by
        simpa [aggGroupsUpTo, foldO_nil] using h
      simp only [List.map_nil, List.sum_nil]
      rfl
  | i+1, groups, h => by
      rw [aggGroupsUpTo_succ] at h
      cases hg : aggGroupsUpTo gb aggs c i with
      | none => rw [hg] at h; exact absurd h (by simp)
      | some gs =>
          rw [hg, someBind] at h
          obtain ⟨_, hkeys, hnd, _⟩ := aggGroupsUpTo_props hg
          obtain ⟨key, st', hkey, hacc, rfl⟩ := stepRow_some h
          have ih := aggGroupsUpTo_count_sum hone hmem hg
          have hcontrib :
              contribOf AggregateFunction.Count c col i = 1 := rfl
          rw [F64.natCast_succ]
          cases hlook : lookupA gs key with
          | some st =>
              rw [hlook] at hacc
              simp only [Option.getD_some] at hacc
              have hcolmem : col ∈ keysA st := by
                rw [hkeys (key, st) (mem_of_lookupA_eq_some hlook)]
                exact mem_keysA_initState.mpr (List.mem_map_of_mem Prod.fst hmem)
              obtain ⟨s, hs⟩ :=
                Option.isSome_iff_exists.mp (lookupA_isSome_of_mem_keysA hcolmem)
              have hv := accumRow_lookup_of_unique hacc hone hmem
              rw [hs] at hv
              obtain ⟨l₁, l₂, hm, hins⟩ := lookupA_split hlook
              rw [hins st']
              rw [hm] at ih
              rw [List.map_append, List.sum_append, List.map_cons,
                List.sum_cons] at ih ⊢
              have hfst : (lookupA (key, st).2 col).getD 0 = s := by
                show (lookupA st col).getD 0 = s
                rw [hs]
                rfl
              have hfst' : (lookupA (key, st').2 col).getD 0 =
                  s + contribOf AggregateFunction.Count c col i := by
                show (lookupA st' col).getD 0 = _
                rw [hv]
                rfl
              rw [hfst] at ih
              rw [hfst', hcontrib, ← ih]
              simp only [add_assoc, add_comm, add_left_comm]
          | none =>
              rw [hlook] at hacc
              simp only [Option.getD_none] at hacc
              have hcolmem : col ∈ keysA aggs :=
                List.mem_map_of_mem Prod.fst hmem
              have hinit : lookupA (initState aggs) col = some 0 := by
                rw [lookupA_initState]
                simp [hcolmem]
              have hv := accumRow_lookup_of_unique hacc hone hmem
              rw [hinit] at hv
              rw [insertA_of_none st' hlook, List.map_append, List.sum_append, ih]
              simp only [List.map_cons, List.map_nil, List.sum_cons, List.sum_nil]
              have hfst' : (lookupA (key, st').2 col).getD 0 =
                  0 + contribOf AggregateFunction.Count c col i := by
                show (lookupA st' col).getD 0 = _
                rw [hv]
                rfl
              rw [hfst', hcontrib]
              simp

theorem get?_mem_enumFrom :
    ∀ (l : List α) (k j : Nat) (a : α), l.get? j = some a →
      (k + j, a) ∈ l.enumFrom k
  | [], _, j, a, h => by simp at h
  | b :: l, k, 0, a, h => by
      obtain rfl : b = a := by simpa using h
      simp [List.enumFrom]
  | b :: l, k, j+1, a, h => by
      have ih := get?_mem_enumFrom l (k+1) j a (by simpa using h)
      have harith : k + (j+1) = (k+1) + j := by omega
      rw [harith]
      exact List.mem_cons_of_mem _ ih

theorem get?_mem_enum {l : List α} {j : Nat} {a : α} (h : l.get? j = some a) :
    (j, a) ∈ l.enum := by
  have := get?_mem_enumFrom l 0 j a h
  simpa [List.enum] using this

theorem pushA_lookup_self {m m' : Chunk} {k : String} {v : String}
    (h : pushA m k v = some m') :
    lookupA m' k = (lookupA m k).map (fun vs => vs ++ [v]) :=
  lookupA_modifyA_self h

theorem pushA_lookup_ne {m m' : Chunk} {k k' : String} {v : String}
    (h : pushA m k v = some m') (hne : k' ≠ k) :
    lookupA m' k' = lookupA m k' :=
  lookupA_modifyA_ne h hne

theorem pushA_keysA {m m' : Chunk} {k : String} {v : String}
    (h : pushA m k v = some m') : keysA m' = keysA m :=
  keysA_modifyA h

theorem pushKeyFold_total {key : List String} :
    ∀ (l : List (Nat × String)) (r : Chunk),
      (∀ p ∈ l, p.1 < key.length) → (∀ p ∈ l, p.2 ∈ keysA r) →
      ∃ r', foldO (fun r p => do
          let v ← key.get? p.1
          pushA r p.2 v) r l = some r' ∧ keysA r' = keysA r
  | [], r, _, _ => ⟨r, rfl, rfl⟩
  | p :: l, r, hlt, hmem => by
      have hv := List.get?_eq_get (hlt p (List.mem_cons_self _ _))
      have hpush : (pushA r p.2 (key.get ⟨p.1, hlt p (List.mem_cons_self _ _)⟩)).isSome :=
        modifyA_isSome (lookupA_isSome_of_mem_keysA (hmem p (List.mem_cons_self _ _)))
      obtain ⟨r₁, hr₁⟩ := Option.isSome_iff_exists.mp hpush
      obtain ⟨r', hr', hkeys⟩ := pushKeyFold_total l r₁
        (fun q hq => hlt q (List.mem_cons_of_mem _ hq))
        (fun q hq => by
          rw [pushA_keysA hr₁]
          exact hmem q (List.mem_cons_of_mem _ hq))
      refine ⟨r', ?_, by rw [hkeys, pushA_keysA hr₁]⟩
      rw [foldO_cons]
      show ((key.get? p.1) >>= fun v => pushA r p.2 v).bind _ = _
      rw [hv, someBindM, hr₁, someBind]
      exact hr'

theorem pushKeyFold_lookup_ne {key : List String} {col : String} :
    ∀ {l : List (Nat × String)} {r r' : Chunk},
      foldO (fun r p => do
          let v ← key.get? p.1
          pushA r p.2 v) r l = some r' →
      (∀ p ∈ l, p.2 ≠ col) → lookupA r' col = lookupA r col
  | [], r, r', h, _ => by
      obtain rfl : r = r' := by simpa [foldO_nil] using h
      rfl
  | p :: l, r, r', h, hne => by
      rw [foldO_cons] at h
      cases hv : key.get? p.1 with
      | none =>
          rw [show ((key.get? p.1) >>= fun v => pushA r p.2 v) =
            ((none : Option String) >>= fun v => pushA r p.2 v) from by rw [hv]] at h
          exact absurd h (by simp)
      | some kv =>
          rw [show ((key.get? p.1) >>= fun v => pushA r p.2 v) =
            pushA r p.2 kv from by rw [hv, someBindM]] at h
          cases hp : pushA r p.2 kv with
          | none => rw [hp] at h; exact absurd h (by simp)
          | some r₁ =>
              rw [hp, someBind] at h
              rw [pushKeyFold_lookup_ne h
                (fun q hq => hne q (List.mem_cons_of_mem _ hq)),
                pushA_lookup_ne hp (fun he => hne p (List.mem_cons_self _ _) he.symm)]

theorem pushKeyFold_lookup_unique {key : List String} {col : String} {j : Nat} :
    ∀ {l : List (Nat × String)} {r r' : Chunk},
      foldO (fun r p => do
          let v ← key.get? p.1
          pushA r p.2 v) r l = some r' →
      (l.map Prod.snd).count col = 1 → (j, col) ∈ l →
      ∃ kv, key.get? j = some kv ∧
        lookupA r' col = (lookupA r col).map (fun vs => vs ++ [kv])
  | [], _, _, _, _, hmem => absurd hmem (List.not_mem_nil _)
  | p :: l, r, r', h, hcount, hmem => by
      rw [foldO_cons] at h
      by_cases hpc : p.2 = col
      · have htail : (l.map Prod.snd).count col = 0 := by
          rw [List.map_cons, hpc, List.count_cons_self] at hcount
          omega
        have hp : p = (j, col) := by
          rcases List.mem_cons.mp hmem with hm | hm
          · exact hm.symm
          · exfalso
            have : col ∈ l.map Prod.snd := List.mem_map_of_mem Prod.snd hm
            rw [List.count_eq_zero] at htail
            exact htail this
        subst hp
        cases hv : key.get? j with
        | none =>
            rw [show ((key.get? (j, col).1) >>= fun v => pushA r (j, col).2 v) =
              ((none : Option String) >>= fun v => pushA r col v) from by
                rw [show (j, col).1 = j from rfl, hv]] at h
            exact absurd h (by simp)
        | some kv =>
            rw [show ((key.get? (j, col).1) >>= fun v => pushA r (j, col).2 v) =
              pushA r col kv from by rw [show (j, col).1 = j from rfl, hv, someBindM]] at h
            cases hp' : pushA r col kv with
            | none => rw [hp'] at h; exact absurd h (by simp)
            | some r₁ =>
                rw [hp', someBind] at h
                refine ⟨kv, rfl, ?_⟩
                rw [pushKeyFold_lookup_ne h (fun q hq he => by
                    have : col ∈ l.map Prod.snd := he ▸ List.mem_map_of_mem Prod.snd hq
                    rw [List.count_eq_zero] at htail
                    exact htail this),
                  pushA_lookup_self hp']
      · have htail : (l.map Prod.snd).count col = 1 := by
          rw [List.map_cons, List.count_cons_of_ne (fun he => hpc he.symm)] at hcount
          exact hcount
        have hmem' : (j, col) ∈ l := by
          rcases List.mem_cons.mp hmem with hm | hm
          · exact absurd (congrArg Prod.snd hm).symm hpc
          · exact hm
        cases hv : key.get? p.1 with
        | none =>
            rw [show ((key.get? p.1) >>= fun v => pushA r p.2 v) =
              ((none : Option String) >>= fun v => pushA r p.2 v) from by rw [hv]] at h
            exact absurd h (by simp)
        | some kv =>
            rw [show ((key.get? p.1) >>= fun v => pushA r p.2 v) =
              pushA r p.2 kv from by rw [hv, someBindM]] at h
            cases hp' : pushA r p.2 kv with
            | none => rw [hp'] at h; exact absurd h (by simp)
            | some r₁ =>
                rw [hp', someBind] at h
                obtain ⟨kv', hkv', hl⟩ :=
                  pushKeyFold_lookup_unique h htail hmem'
                refine ⟨kv', hkv', ?_⟩
                rw [hl, pushA_lookup_ne hp' (fun he => hpc he.symm)]

theorem pushStateFold_total :
    ∀ (st : AggState) (r : Chunk), (∀ p ∈ st, p.1 ∈ keysA r) →
      ∃ r', foldO (fun r p => pushA r p.1 (numToString p.2)) r st = some r' ∧
        keysA r' = keysA r
  | [], r, _ => ⟨r, rfl, rfl⟩
  | p :: st, r, hmem => by
      have hpush : (pushA r p.1 (numToString p.2)).isSome :=
        modifyA_isSome (lookupA_isSome_of_mem_keysA (hmem p (List.mem_cons_self _ _)))
      obtain ⟨r₁, hr₁⟩ := Option.isSome_iff_exists.mp hpush
      obtain ⟨r', hr', hkeys⟩ := pushStateFold_total st r₁
        (fun q hq => by
          rw [pushA_keysA hr₁]
          exact hmem q (List.mem_cons_of_mem _ hq))
      refine ⟨r', ?_, by rw [hkeys, pushA_keysA hr₁]⟩
      rw [foldO_cons, hr₁, someBind]
      exact hr'

theorem pushStateFold_lookup_ne {col : String} :
    ∀ {st : AggState} {r r' : Chunk},
      foldO (fun r p => pushA r p.1 (numToString p.2)) r st = some r' →
      (∀ p ∈ st, p.1 ≠ col) → lookupA r' col = lookupA r col
  | [], r, r', h, _ => by
      obtain rfl : r = r' := by simpa [foldO_nil] using h
      rfl
  | p :: st, r, r', h, hne => by
      rw [foldO_cons] at h
      cases hp : pushA r p.1 (numToString p.2) with
      | none => rw [hp] at h; exact absurd h (by simp)
      | some r₁ =>
          rw [hp, someBind] at h
          rw [pushStateFold_lookup_ne h (fun q hq => hne q (List.mem_cons_of_mem _ hq)),
            pushA_lookup_ne hp (fun he => hne p (List.mem_cons_self _ _) he.symm)]

theorem pushStateFold_lookup_unique {col : String} {q : F64} :
    ∀ {st : AggState} {r r' : Chunk},
      foldO (fun r p => pushA r p.1 (numToString p.2)) r st = some r' →
      (keysA st).count col = 1 → (col, q) ∈ st →
      lookupA r' col = (lookupA r col).map (fun vs => vs ++ [numToString q])
  | [], _, _, _, _, hmem => absurd hmem (List.not_mem_nil _)
  | p :: st, r, r', h, hcount, hmem => by
      rw [foldO_cons] at h
      by_cases hpc : p.1 = col
      · have htail : (keysA st).count col = 0 := by
          rw [show keysA (p :: st) = p.1 :: keysA st from rfl, hpc,
            List.count_cons_self] at hcount
          omega
        have hp : p = (col, q) := by
          rcases List.mem_cons.mp hmem with hm | hm
          · exact hm.symm
          · exfalso
            have : col ∈ keysA st := List.mem_map_of_mem Prod.fst hm
            rw [List.count_eq_zero] at htail
            exact htail this
        subst hp
        cases hp' : pushA r (col, q).1 (numToString (col, q).2) with
        | none => rw [hp'] at h; exact absurd h (by simp)
        | some r₁ =>
            rw [hp', someBind] at h
            rw [pushStateFold_lookup_ne h (fun w hw he => by
                have : col ∈ keysA st := he ▸ List.mem_map_of_mem Prod.fst hw
                rw [List.count_eq_zero] at htail
                exact htail this),
              pushA_lookup_self hp']
      · have htail : (keysA st).count col = 1 := by
          rw [show keysA (p :: st) = p.1 :: keysA st from rfl,
            List.count_cons_of_ne (fun he => hpc he.symm)] at hcount
          exact hcount
        have hmem' : (col, q) ∈ st := by
          rcases List.mem_cons.mp hmem with hm | hm
          · exact absurd (congrArg Prod.fst hm).symm hpc
          · exact hm
        cases hp' : pushA r p.1 (numToString p.2) with
        | none => rw [hp'] at h; exact absurd h (by simp)
        | some r₁ =>
            rw [hp', someBind] at h
            rw [pushStateFold_lookup_unique h htail hmem',
              pushA_lookup_ne hp' (fun he => hpc he.symm)]

theorem enum_mem_facts {l : List α} {p : Nat × α} (hp : p ∈ l.enum) :
    p.1 < l.length ∧ p.2 ∈ l := by
  obtain ⟨i, x⟩ := p
  obtain ⟨-, h2, h3⟩ := List.mem_enumFrom hp
  have hlt : i < l.length := by simpa using h2
  refine ⟨hlt, ?_⟩
  simp only [Nat.sub_zero] at h3
  rw [h3]
  exact List.getElem_mem hlt

theorem emitGroup_eq (gb : List String) (key : List String) (st : AggState)
    (r : Chunk) :
    emitGroup gb key st r =
      (foldO (fun r p => do
          let v ← key.get? p.1
          pushA r p.2 v) r gb.enum).bind
        (fun r₁ => foldO (fun r p => pushA r p.1 (numToString p.2)) r₁ st) := rfl

theorem emitGroup_total {gb key : List String} (st : AggState) (r : Chunk)
    (hkl : gb.length ≤ key.length)
    (hgbk : ∀ col ∈ gb, col ∈ keysA r)
    (hstk : ∀ p ∈ st, p.1 ∈ keysA r) :
    ∃ r', emitGroup gb key st r = some r' ∧ keysA r' = keysA r := by
  obtain ⟨r₁, hr₁, hk₁⟩ := pushKeyFold_total gb.enum r
    (fun p hp => Nat.lt_of_lt_of_le (enum_mem_facts hp).1 hkl)
    (fun p hp => hgbk p.2 (enum_mem_facts hp).2)
  obtain ⟨r', hr', hk'⟩ := pushStateFold_total st r₁
    (fun p hp => by
      rw [hk₁]
      exact hstk p hp)
  refine ⟨r', ?_, by rw [hk', hk₁]⟩
  rw [emitGroup_eq, hr₁, someBind]
  exact hr'

theorem emitGroup_lookup_gbcol {gb key : List String} {st : AggState}
    {r r' : Chunk} {col : String} {j : Nat}
    (h : emitGroup gb key st r = some r') (hnd : gb.Nodup)
    (hj : gb.get? j = some col) (hnotst : col ∉ keysA st) :
    ∃ kv, key.get? j = some kv ∧
      lookupA r' col = (lookupA r col).map (fun vs => vs ++ [kv]) := by
  rw [emitGroup_eq] at h
  cases h1 : foldO (fun r p => do
      let v ← key.get? p.1
      pushA r p.2 v) r gb.enum with
  | none => rw [h1] at h; exact absurd h (by simp)
  | some r₁ =>
      rw [h1, someBind] at h
      have hcount : (gb.enum.map Prod.snd).count col = 1 := by
        rw [List.enum_map_snd]
        exact List.count_eq_one_of_mem hnd (List.get?_mem hj)
      obtain ⟨kv, hkv, hl⟩ :=
        pushKeyFold_lookup_unique h1 hcount (get?_mem_enum hj)
      refine ⟨kv, hkv, ?_⟩
      rw [pushStateFold_lookup_ne h (fun p hp he => hnotst (by
        rw [← he]
        exact List.mem_map_of_mem Prod.fst hp)), hl]

theorem emitGroup_lookup_aggcol {gb key : List String} {st : AggState}
    {r r' : Chunk} {col : String}
    (h : emitGroup gb key st r = some r') (hstnd : (keysA st).Nodup)
    (hmem : col ∈ keysA st) (hnotgb : col ∉ gb) :
    lookupA r' col =
      (lookupA r col).map (fun vs => vs ++ [numToString ((lookupA st col).getD 0)]) := by
  rw [emitGroup_eq] at h
  cases h1 : foldO (fun r p => do
      let v ← key.get? p.1
      pushA r p.2 v) r gb.enum with
  | none => rw [h1] at h; exact absurd h (by simp)
  | some r₁ =>
      rw [h1, someBind] at h
      have hunch : lookupA r₁ col = lookupA r col := by
        apply pushKeyFold_lookup_ne h1
        intro p hp he
        apply hnotgb
        rw [← he]
        exact (enum_mem_facts hp).2
      obtain ⟨q, hq⟩ :=
        Option.isSome_iff_exists.mp (lookupA_isSome_of_mem_keysA hmem)
      have := pushStateFold_lookup_unique h
        (List.count_eq_one_of_mem hstnd hmem) (mem_of_lookupA_eq_some hq)
      rw [this, hunch, hq]
      rfl

theorem emitGroup_lookup_none {gb key : List String} {st : AggState}
    {r r' : Chunk} {col : String}
    (h : emitGroup gb key st r = some r') (hnotst : col ∉ keysA st)
    (hnotgb : col ∉ gb) : lookupA r' col = lookupA r col := by
  rw [emitGroup_eq] at h
  cases h1 : foldO (fun r p => do
      let v ← key.get? p.1
      pushA r p.2 v) r gb.enum with
  | none => rw [h1] at h; exact absurd h (by simp)
  | some r₁ =>
      rw [h1, someBind] at h
      rw [pushStateFold_lookup_ne h (fun p hp he => hnotst (by
        rw [← he]
        exact List.mem_map_of_mem Prod.fst hp))]
      apply pushKeyFold_lookup_ne h1
      intro p hp he
      apply hnotgb
      rw [← he]
      exact (enum_mem_facts hp).2

theorem assembleFold_total {gb : List String}
    {aggs : List (String × AggregateFunction)} :
    ∀ (gs : Groups) (r : Chunk),
      (∀ g ∈ gs, g.1.length = gb.length) →
      (∀ g ∈ gs, keysA g.2 = keysA (initState aggs)) →
      (∀ col ∈ gb, col ∈ keysA r) →
      (∀ col ∈ keysA (initState aggs), col ∈ keysA r) →
      ∃ r', foldO (fun r g => emitGroup gb g.1 g.2 r) r gs = some r' ∧
        keysA r' = keysA r
  | [], r, _, _, _, _ => ⟨r, rfl, rfl⟩
  | g :: gs, r, hlen, hkeys, hgbk, hinitk => by
      obtain ⟨r₁, hr₁, hk₁⟩ := emitGroup_total g.2 r
        (Nat.le_of_eq (hlen g (List.mem_cons_self _ _)).symm)
        hgbk
        (fun p hp => hinitk p.1 (by
          rw [← hkeys g (List.mem_cons_self _ _)]
          exact List.mem_map_of_mem Prod.fst hp))
      obtain ⟨r', hr', hk'⟩ := assembleFold_total gs r₁
        (fun g' hg' => hlen g' (List.mem_cons_of_mem _ hg'))
        (fun g' hg' => hkeys g' (List.mem_cons_of_mem _ hg'))
        (fun col hc => by rw [hk₁]; exact hgbk col hc)
        (fun col hc => by rw [hk₁]; exact hinitk col hc)
      refine ⟨r', ?_, by rw [hk', hk₁]⟩
      rw [foldO_cons, hr₁, someBind]
      exact hr'

theorem assembleFold_lookup {gb : List String} (col : String)
    (P : List String × AggState → String) :
    ∀ {gs : Groups} {r r' : Chunk},
      foldO (fun r g => emitGroup gb g.1 g.2 r) r gs = some r' →
      (∀ g ∈ gs, ∀ (r₀ r₁ : Chunk), emitGroup gb g.1 g.2 r₀ = some r₁ →
        lookupA r₁ col = (lookupA r₀ col).map (fun vs => vs ++ [P g])) →
      lookupA r' col = (lookupA r col).map (fun vs => vs ++ gs.map P)
  | [], r, r', h, _ => by
      obtain rfl : r = r' := by simpa [foldO_nil] using h
      cases lookupA r col <;> simp
  | g :: gs, r, r', h, hemit => by
      rw [foldO_cons] at h
      cases h1 : emitGroup gb g.1 g.2 r with
      | none => rw [h1] at h; exact absurd h (by simp)
      | some r₁ =>
          rw [h1, someBind] at h
          have hstep := hemit g (List.mem_cons_self _ _) r r₁ h1
          have hrest := assembleFold_lookup col P h
            (fun g' hg' => hemit g' (List.mem_cons_of_mem _ hg'))
          rw [hrest, hstep]
          cases lookupA r col <;> simp

theorem aggregateExec_eq (gb : List String)
    (aggs : List (String × AggregateFunction)) (c : Chunk) :
    aggregateExec gb aggs c =
      (aggGroups gb aggs c).bind (fun groups =>
        foldO (fun r g => emitGroup gb g.1 g.2 r) (initResult gb aggs) groups) := rfl

/-- C10: for every Aggregate node whose group-by column names and aggregate
target column names all occur in the child's output chunk, and whose child
chunk has equal-length columns, execution is total: grouping, accumulation,
and output assembly all succeed and a Result Chunk is produced. -/
theorem aggregate_execute_total (x : PlanNode) (gb : List String)
    (aggs : List (String × AggregateFunction)) (c : Chunk)
    (hx : PlanNode.execute x = some c) (hlen : equalLens c = true)
    (hgb : ∀ col ∈ gb, hasKey c col = true)
    (hagg : ∀ p ∈ aggs, hasKey c p.1 = true) :
    ∃ out, PlanNode.execute (PlanNode.aggregate x gb aggs) = some out := by
  obtain ⟨groups, hgroups⟩ :=
    aggGroupsUpTo_total hlen hgb hagg (numRows c) (Nat.le_refl _)
  obtain ⟨hglen, hgkeys, _, _⟩ := aggGroupsUpTo_props hgroups
  obtain ⟨out, hout, _⟩ := assembleFold_total groups
    (initResult gb aggs) hglen hgkeys
    (fun col hc => mem_keysA_initResult.mpr (Or.inl hc))
    (fun col hc => mem_keysA_initResult.mpr (Or.inr (mem_keysA_initState.mp hc)))
  refine ⟨out, ?_⟩
  simp only [PlanNode.execute, hx, Option.some_bind]
  rw [aggregateExec_eq, show aggGroups gb aggs c = some groups from hgroups,
    someBind]
  exact hout

/-- Witness for the Aggregate totality law at a concrete input. -/
theorem aggregate_execute_total_witness :
    (PlanNode.execute (PlanNode.scan sampleTable) = some (scanExec sampleTable)) ∧
    equalLens (scanExec sampleTable) = true ∧
    (∀ col ∈ ["region"], hasKey (scanExec sampleTable) col = true) ∧
    (∀ p ∈ [("sales", AggregateFunction.Sum)],
      hasKey (scanExec sampleTable) p.1 = true) ∧
    ∃ out, PlanNode.execute (PlanNode.aggregate (PlanNode.scan sampleTable)
      ["region"] [("sales", AggregateFunction.Sum)]) = some out :=
  ⟨rfl, by decide, by decide, by decide,
    aggregate_execute_total (PlanNode.scan sampleTable) ["region"]
      [("sales", AggregateFunction.Sum)] (scanExec sampleTable) rfl
      (by decide) (by decide) (by decide)⟩

/-- C1 (amended: the target column must occur in exactly one aggregate pair):
for every Aggregate node execution, within each group the Sum aggregate of
the target column equals the arithmetic sum, over the group's rows, of the
values of that column that parse as numbers, a value that fails to parse
contributing exactly zero and signaling no error. -/
theorem sum_aggregate_law (x : PlanNode) (gb : List String)
    (aggs : List (String × AggregateFunction)) (c : Chunk) (col : String)
    (groups : Groups)
    (_hexe : PlanNode.execute x = some c)
    (hgroups : aggGroups gb aggs c = some groups)
    (hone : (keysA aggs).count col = 1)
    (hmem : (col, AggregateFunction.Sum) ∈ aggs) :
    ∀ g ∈ groups, lookupA g.2 col =
      some ((((List.range (numRows c)).filter
          (fun j => groupKey gb c j = some g.1)).map
        (fun j => ((cell c col j).bind parseNum).getD 0)).sum) := by
  intro g hg
  have hval := aggGroupsUpTo_value hone hmem hgroups g hg
  rw [hval]
  rfl

/-- Witness for the Sum aggregation law at a concrete input. -/
theorem sum_aggregate_law_witness :
    (aggGroups ["region"] [("sales", AggregateFunction.Sum)]
        (scanExec sampleTable) =
      some [(["East"], [("sales", 400)]), (["West"], [("sales", 200)])]) ∧
    ((keysA [("sales", AggregateFunction.Sum)]).count "sales" = 1) ∧
    ∀ g ∈ [((["East"] : List String), [(("sales" : String), (400 : F64))]),
        (["West"], [("sales", 200)])],
      lookupA g.2 "sales" =
        some ((((List.range (numRows (scanExec sampleTable))).filter
            (fun j => groupKey ["region"] (scanExec sampleTable) j = some g.1)).map
          (fun j => ((cell (scanExec sampleTable) "sales" j).bind parseNum).getD 0)).sum) :=
  ⟨by decide, by decide,
    sum_aggregate_law (PlanNode.scan sampleTable) ["region"]
      [("sales", AggregateFunction.Sum)] (scanExec sampleTable) "sales"
      [(["East"], [("sales", 400)]), (["West"], [("sales", 200)])] rfl
      (by decide) (by decide) (by decide)⟩

/-- Counterexample to C1 as stated: with the duplicated aggregate list
`[(s, Sum), (s, Sum)]` on `g=[a]`, `s=[1]`, the group's accumulated Sum value
is `2`, while the arithmetic sum of the parsed values of column `s` in the
group is `1`. -/
theorem sum_aggregate_law_counterexample :
    (aggGroups ["g"] [("s", AggregateFunction.Sum), ("s", AggregateFunction.Sum)]
        (scanExec tableGS1) = some [(["a"], [("s", 2)])]) ∧
    ((((List.range (numRows (scanExec tableGS1))).filter
        (fun j => groupKey ["g"] (scanExec tableGS1) j = some ["a"])).map
      (fun j => ((cell (scanExec tableGS1) "s" j).bind parseNum).getD 0)).sum
        = 1) ∧
    (2 : F64) ≠ 1 :=
  ⟨by decide, by decide, by decide⟩

/-- C6 (amended: the Count aggregate's target name must occur in exactly one
aggregate pair): for every Aggregate node execution whose aggregate list
contains such a Count aggregate, the sum of the Count values across all
emitted groups equals the input chunk's row count — Count increments once per
row of its group, independent of the target column's content. -/
theorem count_aggregate_total_law (x : PlanNode) (gb : List String)
    (aggs : List (String × AggregateFunction)) (c : Chunk) (col : String)
    (groups : Groups)
    (_hexe : PlanNode.execute x = some c)
    (hgroups : aggGroups gb aggs c = some groups)
    (hone : (keysA aggs).count col = 1)
    (hmem : (col, AggregateFunction.Count) ∈ aggs) :
    (groups.map (fun g => (lookupA g.2 col).getD 0)).sum = (numRows c : F64) :=
  aggGroupsUpTo_count_sum hone hmem hgroups

/-- Witness for the Count totality law at a concrete input. -/
theorem count_aggregate_total_law_witness :
    (aggGroups ["region"] [("sales", AggregateFunction.Count)]
        (scanExec sampleTable) =
      some [(["East"], [("sales", 2)]), (["West"], [("sales", 1)])]) ∧
    (([((["East"] : List String), [(("sales" : String), (2 : F64))]),
        (["West"], [("sales", 1)])].map
      (fun g => (lookupA g.2 "sales").getD 0)).sum =
        (numRows (scanExec sampleTable) : F64)) :=
  ⟨by decide,
    count_aggregate_total_law (PlanNode.scan sampleTable) ["region"]
      [("sales", AggregateFunction.Count)] (scanExec sampleTable) "sales"
      [(["East"], [("sales", 2)]), (["West"], [("sales", 1)])] rfl
      (by decide) (by decide) (by decide)⟩

/-- Counterexample to C6 as stated: with the duplicated aggregate list
`[(s, Count), (s, Sum)]` on `g=[a]`, `s=[5]`, the single accumulator mixes
the count and the sum: the Count aggregate's total across groups is `6`,
not the row count `1`. -/
theorem count_aggregate_total_law_counterexample :
    (aggGroups ["g"]
        [("s", AggregateFunction.Count), ("s", AggregateFunction.Sum)]
        (scanExec tableGS5) = some [(["a"], [("s", 6)])]) ∧
    (([((["a"] : List String), [(("s" : String), (6 : F64))])].map
      (fun g => (lookupA g.2 "s").getD 0)).sum = 6) ∧
    (6 : F64) ≠ (numRows (scanExec tableGS5) : F64) :=
  ⟨by decide, by decide, by decide⟩

theorem equalLens_of_const {c : Chunk} (n : Nat)
    (h : ∀ p ∈ c, p.2.length = n) : equalLens c = true := by
  rw [equalLens_iff]
  intro p hp
  cases c with
  | nil => cases hp
  | cons q c' =>
      have hq := h q (List.mem_cons_self _ _)
      rw [numRows, hq, h p hp]

theorem aggregateExec_lookup_cols {gb : List String}
    {aggs : List (String × AggregateFunction)} {c : Chunk} {out : Chunk}
    {groups : Groups}
    (hexec : aggregateExec gb aggs c = some out)
    (hgroups : aggGroups gb aggs c = some groups)
    (hgbnd : gb.Nodup) (hdisj : ∀ p ∈ aggs, p.1 ∉ gb) :
    keysA out = keysA (initResult gb aggs) ∧
    (∀ j col, gb.get? j = some col →
      lookupA out col = some (groups.map (fun g => (g.1.get? j).getD ""))) ∧
    (∀ col, col ∈ keysA aggs →
      lookupA out col = some (groups.map (fun g =>
        numToString ((lookupA g.2 col).getD 0)))) := by
  obtain ⟨hglen, hgkeys, hgnd, _⟩ := aggGroupsUpTo_props hgroups
  rw [aggregateExec_eq, show aggGroups gb aggs c = some groups from hgroups,
    someBind] at hexec
  obtain ⟨r', hr', hkeys'⟩ := assembleFold_total groups
    (initResult gb aggs) hglen hgkeys
    (fun col hc => mem_keysA_initResult.mpr (Or.inl hc))
    (fun col hc => mem_keysA_initResult.mpr (Or.inr (mem_keysA_initState.mp hc)))
  obtain rfl : r' = out := by
    rw [hr'] at hexec
    exact Option.some_inj.mp hexec
  refine ⟨hkeys', ?_, ?_⟩
  · intro j col hj
    have hcolgb : col ∈ gb := List.get?_mem hj
    have hnotagg : col ∉ keysA aggs := by
      intro hmem
      obtain ⟨p, hp, hpe⟩ := List.mem_map.mp hmem
      apply hdisj p hp
      rw [hpe]
      exact hcolgb
    have hP := assembleFold_lookup col
      (fun g => (g.1.get? j).getD "") hr' ?_
    · rw [hP, lookupA_initResult]
      simp [hnotagg, hcolgb]
    · intro g hg r₀ r₁ hemit
      have hnost : col ∉ keysA g.2 := by
        rw [hgkeys g hg]
        intro hmem
        exact hnotagg (mem_keysA_initState.mp hmem)
      obtain ⟨kv, hkv, hlook⟩ := emitGroup_lookup_gbcol hemit hgbnd hj hnost
      rw [hlook]
      have hval : (fun g : List String × AggState => (g.1.get? j).getD "") g
          = kv := by
        show (g.1.get? j).getD "" = kv
        rw [hkv]
        rfl
      rw [hval]
  · intro col hcolagg
    have hnotgb : col ∉ gb := by
      intro hg
      obtain ⟨p, hp, hpe⟩ := List.mem_map.mp hcolagg
      apply hdisj p hp
      rw [hpe]
      exact hg
    have hP := assembleFold_lookup col
      (fun g => numToString ((lookupA g.2 col).getD 0)) hr' ?_
    · rw [hP, lookupA_initResult]
      simp [hcolagg]
    · intro g hg r₀ r₁ hemit
      exact emitGroup_lookup_aggcol hemit
        (by rw [hgkeys g hg]; exact keysA_initState_nodup aggs)
        (by rw [hgkeys g hg]; exact mem_keysA_initState.mpr hcolagg)
        hnotgb

/-- C2 (amended: for the Aggregate operator the group-by column names must be
pairwise distinct and no aggregate target name may also be a group-by
column name): every operator — Scan on a store with uniform column lengths,
Project, Filter, and Aggregate on a child chunk with equal-length columns —
produces a Result Chunk whose present columns all share one length, so that
row `i` across the output columns denotes one logical row. -/
theorem operators_preserve_equal_lengths (t : Table) (n : Nat) (c : Chunk)
    (cols gb : List String) (pred : RowView → Bool)
    (aggs : List (String × AggregateFunction))
    (ht : ∀ p ∈ t.columns, p.2.data.length = n)
    (hc : equalLens c = true)
    (hgbnd : gb.Nodup) (hdisj : ∀ p ∈ aggs, p.1 ∉ gb) :
    equalLens (scanExec t) = true ∧
    equalLens (projectExec cols c) = true ∧
    (∀ out, filterExec pred c = some out → equalLens out = true) ∧
    (∀ out, aggregateExec gb aggs c = some out → equalLens out = true) := by
  refine ⟨?_, ?_, ?_, ?_⟩
  · apply equalLens_of_const n
    intro p hp
    obtain ⟨q, hq, hq2⟩ := List.mem_map.mp hp
    rw [← hq2]
    exact ht q hq
  · apply equalLens_of_const (numRows c)
    intro p hp
    exact equalLens_iff.mp hc p (List.mem_of_mem_filter hp)
  · intro out hout
    obtain ⟨kept, hsub, _, _, hexec⟩ := filterExec_some pred hc
    rw [hexec] at hout
    obtain rfl := Option.some_inj.mp hout
    apply equalLens_of_const kept.length
    intro p hp
    obtain ⟨q, hq, hq2⟩ := List.mem_map.mp hp
    rw [← hq2]
    apply filterMap_get_length
    intro i hi
    have hlt : i < numRows c := List.mem_range.mp (hsub.subset hi)
    rw [equalLens_iff.mp hc q hq]
    exact hlt
  · intro out hout
    have hout' := hout
    rw [aggregateExec_eq] at hout'
    cases hgroups : aggGroups gb aggs c with
    | none => rw [hgroups] at hout'; exact absurd hout' (by simp)
    | some groups =>
        obtain ⟨hkeys, hgbcol, haggcol⟩ :=
          aggregateExec_lookup_cols hout hgroups hgbnd hdisj
        apply equalLens_of_const groups.length
        intro p hp
        have hnd : (keysA out).Nodup := by
          rw [hkeys]
          exact keysA_initResult_nodup gb aggs
        have hlookup := lookupA_eq_some_of_mem hnd hp
        have hmemkeys : p.1 ∈ keysA out := List.mem_map_of_mem Prod.fst hp
        rw [hkeys] at hmemkeys
        rcases mem_keysA_initResult.mp hmemkeys with hgb | hagg
        · obtain ⟨j, hj⟩ := List.get_of_mem hgb
          have hj' : gb.get? j = some p.1 := by
            rw [List.get?_eq_get j.isLt, hj]
          have := hgbcol j p.1 hj'
          rw [hlookup] at this
          have hp2 : p.2 = groups.map (fun g => (g.1.get? (↑j : Nat)).getD "") := by
            simpa using this
          rw [hp2, List.length_map]
        · have := haggcol p.1 hagg
          rw [hlookup] at this
          have hp2 : p.2 = groups.map (fun g =>
              numToString ((lookupA g.2 p.1).getD 0)) := by
            simpa using this
          rw [hp2, List.length_map]

/-- Witness for the equal-length invariant at concrete inputs. -/
theorem operators_preserve_equal_lengths_witness :
    (∀ p ∈ sampleTable.columns, p.2.data.length = 3) ∧
    equalLens (scanExec sampleTable) = true ∧
    (equalLens (scanExec sampleTable) = true ∧
      equalLens (projectExec ["sales"] (scanExec sampleTable)) = true ∧
      (∀ out, filterExec (fun rv => rv "region" == some "East")
        (scanExec sampleTable) = some out → equalLens out = true) ∧
      (∀ out, aggregateExec ["region"] [("sales", AggregateFunction.Count)]
        (scanExec sampleTable) = some out → equalLens out = true)) :=
  ⟨by decide, by decide,
    operators_preserve_equal_lengths sampleTable 3 (scanExec sampleTable)
      ["sales"] ["region"] (fun rv => rv "region" == some "East")
      [("sales", AggregateFunction.Count)] (by decide) (by decide)
      (by decide) (by decide)⟩

/-- Counterexample to C2 as stated: an Aggregate node whose aggregate target
`a` is also a group-by column, run on the equal-length table `a=[x]`,
`b=[y]`, produces a chunk whose column `a` has two entries (the key and the
aggregate) while column `b` has one. -/
theorem operators_preserve_equal_lengths_counterexample :
    equalLens (scanExec tableAB) = true ∧
    PlanNode.execute (PlanNode.aggregate (PlanNode.scan tableAB) ["a", "b"]
        [("a", AggregateFunction.Count)]) =
      some [("a", ["x", "1"]), ("b", ["y"])] ∧
    equalLens [("a", ["x", "1"]), ("b", ["y"])] = false :=
  ⟨by decide, by decide, by decide⟩

/-- C7 (amended: group-by column names pairwise distinct, aggregate target
names pairwise distinct, and the two sets disjoint): executing an Aggregate
node yields a Result Chunk with one column per group-by key holding the
group's key components, plus one column per aggregate target name holding
the group's computed aggregate converted to text, with row `i` of every
output column corresponding to the same group (each output column is a map
over the one groups list). -/
theorem aggregate_output_shape (x : PlanNode) (gb : List String)
    (aggs : List (String × AggregateFunction)) (c : Chunk) (out : Chunk)
    (groups : Groups)
    (hx : PlanNode.execute x = some c)
    (hexec : PlanNode.execute (PlanNode.aggregate x gb aggs) = some out)
    (hgroups : aggGroups gb aggs c = some groups)
    (hgbnd : gb.Nodup) (haggnd : (keysA aggs).Nodup)
    (hdisj : ∀ p ∈ aggs, p.1 ∉ gb) :
    keysA out = gb ++ keysA aggs ∧
    (∀ g ∈ groups, g.1.length = gb.length) ∧
    (∀ j col, gb.get? j = some col →
      lookupA out col = some (groups.map (fun g => (g.1.get? j).getD ""))) ∧
    (∀ p ∈ aggs, lookupA out p.1 =
      some (groups.map (fun g => numToString ((lookupA g.2 p.1).getD 0)))) := by
  have hexec' : aggregateExec gb aggs c = some out := by
    simp only [PlanNode.execute, hx, Option.some_bind] at hexec
    exact hexec
  obtain ⟨hkeys, hgbcol, haggcol⟩ :=
    aggregateExec_lookup_cols hexec' hgroups hgbnd hdisj
  obtain ⟨hglen, _, _, _⟩ := aggGroupsUpTo_props hgroups
  refine ⟨?_, hglen, hgbcol, ?_⟩
  · rw [hkeys, keysA_initResult_of_fresh hgbnd haggnd]
    intro k hk
    obtain ⟨p, hp, hpe⟩ := List.mem_map.mp hk
    rw [← hpe]
    exact hdisj p hp
  · intro p hp
    exact haggcol p.1 (List.mem_map_of_mem Prod.fst hp)

/-- Witness for the Aggregate output-shape law at a concrete input. -/
theorem aggregate_output_shape_witness :
    (PlanNode.execute (PlanNode.aggregate (PlanNode.scan sampleTable)
        ["region"] [("sales", AggregateFunction.Sum)]) =
      some [("region", ["East", "West"]), ("sales", ["400", "200"])]) ∧
    (aggGroups ["region"] [("sales", AggregateFunction.Sum)]
        (scanExec sampleTable) =
      some [(["East"], [("sales", 400)]), (["West"], [("sales", 200)])]) ∧
    (keysA [(("region" : String), ["East", "West"]),
        ("sales", ["400", "200"])] = ["region"] ++
      keysA [(("sales" : String), AggregateFunction.Sum)] ∧
    (∀ g ∈ [((["East"] : List String), [(("sales" : String), (400 : F64))]),
        (["West"], [("sales", 200)])], g.1.length = (["region"] : List String).length) ∧
    (∀ j col, (["region"] : List String).get? j = some col →
      lookupA [(("region" : String), ["East", "West"]),
          ("sales", ["400", "200"])] col =
        some ([((["East"] : List String), [(("sales" : String), (400 : F64))]),
          (["West"], [("sales", 200)])].map (fun g => (g.1.get? j).getD ""))) ∧
    (∀ p ∈ [(("sales" : String), AggregateFunction.Sum)],
      lookupA [(("region" : String), ["East", "West"]),
          ("sales", ["400", "200"])] p.1 =
        some ([((["East"] : List String), [(("sales" : String), (400 : F64))]),
          (["West"], [("sales", 200)])].map (fun g =>
            numToString ((lookupA g.2 p.1).getD 0))))) :=
  ⟨by decide, by decide,
    aggregate_output_shape (PlanNode.scan sampleTable) ["region"]
      [("sales", AggregateFunction.Sum)] (scanExec sampleTable)
      [("region", ["East", "West"]), ("sales", ["400", "200"])]
      [(["East"], [("sales", 400)]), (["West"], [("sales", 200)])]
      rfl (by decide) (by decide) (by decide) (by decide) (by decide)⟩

/-- Counterexample to C7 as stated: with the duplicated aggregate list
`[(s, Sum), (s, Count)]` on `g=[a]`, `s=[2]`, the two (target, kind) pairs
share one output column and one accumulator, which holds `3` — neither the
group's Sum (`2`) nor its Count (`1`) converted to text. -/
theorem aggregate_output_shape_counterexample :
    PlanNode.execute (PlanNode.aggregate (PlanNode.scan tableGS2) ["g"]
        [("s", AggregateFunction.Sum), ("s", AggregateFunction.Count)]) =
      some [("g", ["a"]), ("s", ["3"])] ∧
    numToString 2 = "2" ∧ numToString 1 = "1" ∧
    ("3" : String) ≠ "2" ∧ ("3" : String) ≠ "1" :=
  ⟨by decide, by decide, by decide, by decide, by decide⟩

/-- Witness for the Filter laws at a concrete input. -/
theorem filter_laws_witness :
    (PlanNode.execute (PlanNode.scan sampleTable) = some (scanExec sampleTable)) ∧
    equalLens (scanExec sampleTable) = true ∧
    ∃ out, PlanNode.execute (PlanNode.filter (PlanNode.scan sampleTable)
        (fun rv => rv "region" == some "East")) = some out ∧
      keysA out = keysA (scanExec sampleTable) ∧
      numRows out ≤ numRows (scanExec sampleTable) ∧
      (∀ name v w, lookupA (scanExec sampleTable) name = some v →
        lookupA out name = some w → w.Sublist v) ∧
      ((∀ rv : RowView, (rv "region" == some "East") = true) →
        out = scanExec sampleTable) ∧
      ((∀ rv : RowView, (rv "region" == some "East") = false) →
        ∀ p ∈ out, p.2 = []) :=
  ⟨rfl, by decide,
    filter_laws (PlanNode.scan sampleTable)
      (fun rv => rv "region" == some "East") (scanExec sampleTable) rfl
      (by decide)⟩

end Olap
